import Mathlib

/-!
# Task manager: embedding of the list, undo stack, index trees and snapshot file

Shallow embedding of `Sources/task.c`, `stack.c`, `tree.c`, `list.c`, `file.c` and of the
menu commands of `main.c`.

Modelling conventions.

* A C linked list (`List`, the `StackNode` chain) is the Lean list of its payloads, head first.
* A `Task *` is modelled by the task's field values; `malloc` is assumed to succeed.
* A call that runs into undefined behaviour of C (a write through a freed pointer) has the
  result `none`.
* Interactive input is explicit: a command carries the task typed in through `fillTask`, and
  `list_restoreTask` receives the answers that `readInt` will return, in order.
* `int` results that can overflow are wrapped to 32 bits with `wrap32`.
* Screen output and the loading animation are dropped.
-/

namespace TaskManager

/-! ## task.h -/

/-- The record `Task` of `task.h`; `priority` and `status` are the enum's integer values. -/
structure Task where
  id : Int
  title : String
  description : String
  priority : Int
  status : Int
deriving DecidableEq, Repr, Inhabited

/-- The assignment `task->id = id`: the same task with another id. -/
def Task.setId (t : Task) (id : Int) : Task := { t with id := id }

/-! ## stack.h / stack.c -/

/-- Enum `TaskPosition` of `stack.h`. -/
inductive TaskPosition where
  | POS_HEAD
  | POS_MIDDLE
  | POS_END
deriving DecidableEq, Repr, Inhabited

/-- One `StackNode`: the task and the metadata stored with it (the `next` link is the list). -/
structure StackNode where
  task : Task
  position : TaskPosition
  target_id : Int
deriving DecidableEq, Repr, Inhabited

/-- The struct `Stack`: `top` is the chain of nodes from the top down, `size` the stored counter. -/
structure Stack where
  top : List StackNode
  size : Int
deriving DecidableEq, Repr, Inhabited

/-- The constant `MAX_STACK_SIZE`. -/
def MAX_STACK_SIZE : Int := 10

/-- The function `stack_create`: no node, size 0. -/
def stack_create : Stack := { top := [], size := 0 }

/-- The eviction block of `stack_push`: walk to the last node; when it has a predecessor
(`prev != NULL`) unlink and free it and decrement `size`. A chain of one node is left alone.
The empty chain cannot occur with `size >= 10` (the C code would dereference `NULL`); the
model leaves it unchanged. -/
def stack_evictOldest (s : Stack) : Stack :=
  match s.top with
  | [] => s
  | [_] => s
  | n :: m :: rest => { top := (n :: m :: rest).dropLast, size := s.size - 1 }

/-- The function `stack_push`. -/
def stack_push (s : Stack) (task : Task) (position : TaskPosition) (target_id : Int) : Stack :=
  let s1 := if s.size ≥ MAX_STACK_SIZE then stack_evictOldest s else s
  { top := { task := task, position := position, target_id := target_id } :: s1.top,
    size := s1.size + 1 }

/-- The function `stack_pop`: `none` stands for the `NULL` result on an empty stack. -/
def stack_pop (s : Stack) : Option (StackNode × Stack) :=
  match s.top with
  | [] => none
  | n :: rest => some (n, { top := rest, size := s.size - 1 })

/-- The function `stack_peek`. -/
def stack_peek (s : Stack) : Option Task :=
  match s.top with
  | [] => none
  | n :: _ => some n.task

/-- The function `stack_isEmpty`. -/
def stack_isEmpty (s : Stack) : Bool := s.top.isEmpty

/-- The function `stack_getSize`. -/
def stack_getSize (s : Stack) : Int := s.size

/-! ## tree.h / tree.c -/

/-- Enum `SortKey` of `tree.h`. -/
inductive SortKey where
  | KEY_ID
  | KEY_PRIORITY
  | KEY_STATUS
deriving DecidableEq, Repr, Inhabited

/-- A `TreeNode *`: `null` or a node with its task and two children. The node's `Task *` is
modelled by the field values the task has when the node is created. That is exact as long
as the task is neither rewritten in place nor freed while the node exists; the model does not
follow a later change of the task into the nodes that point to it. -/
inductive TreeNode where
  | null : TreeNode
  | node (task : Task) (left : TreeNode) (right : TreeNode) : TreeNode
deriving DecidableEq, Repr, Inhabited

/-- The struct `Tree`. -/
structure Tree where
  root : TreeNode
  key : SortKey
deriving DecidableEq, Repr, Inhabited

/-- Two's-complement wrap-around of an `int` result to 32 bits. -/
def wrap32 (x : Int) : Int := (x + 2147483648) % 4294967296 - 2147483648

/-- The function `tree_create`. -/
def tree_create (key : SortKey) : Tree := { root := TreeNode.null, key := key }

/-- The function `tree_free`, seen from a caller that keeps its `Tree *`: after the nodes
the function frees the `Tree` struct itself (`free(tree)`), so what the pointer refers to
afterwards is `none`: the pointer is dangling. -/
def tree_free (_tree : Tree) : Option Tree := none

/-- The assignment `*tree = *tree_create(key)` of `list_updateTask`: it writes through the
caller's pointer `tree`, given here by what it refers to. Writing through a dangling pointer
is a use after free and has no defined result (`none`). -/
def tree_assignCreated (tree : Option Tree) (key : SortKey) : Option Tree :=
  match tree with
  | none => none
  | some _ => some (tree_create key)

/-- The function `compareTasks`: the difference of the two keys, as an `int`. -/
def compareTasks (t1 t2 : Task) (key : SortKey) : Int :=
  match key with
  | SortKey.KEY_ID => wrap32 (t1.id - t2.id)
  | SortKey.KEY_PRIORITY => wrap32 (t1.priority - t2.priority)
  | SortKey.KEY_STATUS => wrap32 (t1.status - t2.status)

/-- The function `tree_insertNode`: descend left when `cmp < 0`, right otherwise, and
create the node at the first empty slot. -/
def tree_insertNode (node : TreeNode) (task : Task) (key : SortKey) : TreeNode :=
  match node with
  | TreeNode.null => TreeNode.node task TreeNode.null TreeNode.null
  | TreeNode.node t l r =>
    if compareTasks task t key < 0 then
      TreeNode.node t (tree_insertNode l task key) r
    else
      TreeNode.node t l (tree_insertNode r task key)

/-- The function `tree_insert`. -/
def tree_insert (tree : Tree) (task : Task) : Tree :=
  { tree with root := tree_insertNode tree.root task tree.key }

/-- The traversal of `tree_printInorderNode`: the tasks in the order they are printed. -/
def tree_inorderNode (node : TreeNode) : List Task :=
  match node with
  | TreeNode.null => []
  | TreeNode.node t l r => tree_inorderNode l ++ t :: tree_inorderNode r

/-- The tasks printed by `tree_printInorder`, in order. -/
def tree_inorder (tree : Tree) : List Task := tree_inorderNode tree.root

/-- The sort key of a task, as read by `compareTasks`. -/
def taskKey (key : SortKey) (t : Task) : Int :=
  match key with
  | SortKey.KEY_ID => t.id
  | SortKey.KEY_PRIORITY => t.priority
  | SortKey.KEY_STATUS => t.status

/-! ## list.c -/

/-- Everything the list functions read and write: the list reachable from `head`, the undo
stack, the three trees and the static `list_counter`. -/
structure State where
  head_list : List Task
  undo_stack : Stack
  id_tree : Tree
  priority_tree : Tree
  status_tree : Tree
  list_counter : Int
deriving DecidableEq, Repr, Inhabited

/-- The function `listCounter_increment`. -/
def listCounter_increment (c : Int) : Int := c + 1

/-- The function `listCounter_decrement`. -/
def listCounter_decrement (c : Int) : Int := if c > 0 then c - 1 else c

/-- The function `listCounter_reset`. -/
def listCounter_reset : Int := 0

/-- The three `tree_insert` calls that follow every insertion into the list. -/
def insertIntoTrees (s : State) (task : Task) : State :=
  { s with
    id_tree := tree_insert s.id_tree task,
    priority_tree := tree_insert s.priority_tree task,
    status_tree := tree_insert s.status_tree task }

/-- The function `list_hasID`. -/
def list_hasID : List Task → Int → Bool
  | [], _ => false
  | t :: rest, id => if t.id = id then true else list_hasID rest id

/-- The walk `while (temp->next != NULL) temp = temp->next; temp->next = new_node` used by
`list_addToEnd` and by the `POS_END` branch of `list_restoreTask`, on a non-empty list given
as its first node and the rest. -/
def list_linkAtEnd (new_task : Task) : Task → List Task → List Task
  | temp, [] => [temp, new_task]
  | temp, n :: rest => temp :: list_linkAtEnd new_task n rest

/-- The search `while (current != NULL && current->task->id != target_id)` followed by linking
the new node after `current`; `none` when the search ends with `current == NULL`. -/
def list_linkAfterID (target_id : Int) (new_task : Task) : List Task → Option (List Task)
  | [] => none
  | c :: rest =>
    if c.id ≠ target_id then
      match list_linkAfterID target_id new_task rest with
      | none => none
      | some l => some (c :: l)
    else some (c :: new_task :: rest)

/-- The function `list_addToHead`, with `new_task` the task entered through `fillTask`. -/
def list_addToHead (s : State) (new_task : Task) : State :=
  insertIntoTrees
    { s with head_list := new_task :: s.head_list,
             list_counter := listCounter_increment s.list_counter } new_task

/-- The function `list_addToEnd`: nothing happens on the empty list (`head == NULL`). -/
def list_addToEnd (s : State) (new_task : Task) : State :=
  match s.head_list with
  | [] => s
  | h :: rest =>
    insertIntoTrees
      { s with head_list := list_linkAtEnd new_task h rest,
               list_counter := listCounter_increment s.list_counter } new_task

/-- The function `list_addToMiddle`: nothing happens when no task has id `target_id`. -/
def list_addToMiddle (s : State) (target_id : Int) (new_task : Task) : State :=
  match list_linkAfterID target_id new_task s.head_list with
  | none => s
  | some l =>
    insertIntoTrees
      { s with head_list := l,
               list_counter := listCounter_increment s.list_counter } new_task

/-- The function `list_removeFromHead`. -/
def list_removeFromHead (s : State) : State :=
  match s.head_list with
  | [] => s
  | temp :: rest =>
    { s with undo_stack := stack_push s.undo_stack temp TaskPosition.POS_HEAD 0,
             head_list := rest,
             list_counter := listCounter_decrement s.list_counter }

/-- The search loop of `list_removeByID`, started at `current` with the nodes after it and
the running `prev_id`. Each round stores `current->task->id` in `prev_id` and then advances
`current`. On success it returns the final `prev_id`, the task of `to_delete` and the list
from `current` on with `to_delete` unlinked; `none` when `current->next == NULL` is reached. -/
def list_removeByID_search (target_id : Int) : Task → List Task → Int → Option (Int × Task × List Task)
  | _, [], _ => none
  | current, n :: rest, prev_id =>
    if n.id ≠ target_id then
      match list_removeByID_search target_id n rest current.id with
      | none => none
      | some (p, d, l) => some (p, d, current :: l)
    else some (prev_id, n, current :: rest)

/-- The function `list_removeByID`, with `target_id` the id read from the user. -/
def list_removeByID (s : State) (target_id : Int) : State :=
  match s.head_list with
  | [] => s
  | h :: rest =>
    if h.id = target_id then
      { s with undo_stack := stack_push s.undo_stack h TaskPosition.POS_HEAD 0,
               head_list := rest,
               list_counter := listCounter_decrement s.list_counter }
    else
      match list_removeByID_search target_id h rest h.id with
      | none => s
      | some (prev_id, d, l) =>
        { s with undo_stack := stack_push s.undo_stack d TaskPosition.POS_MIDDLE prev_id,
                 head_list := l,
                 list_counter := listCounter_decrement s.list_counter }

/-- The loop `while (list_hasID(head, task->id)) task->id = readInt(...)` of
`list_restoreTask`: `id` is the current `task->id`, `inputs` the answers `readInt` will give.
Returns the id the loop ends with and the unread answers; `none` when the answers run out
while the id is still taken (the program keeps prompting). -/
def list_restoreTask_newID (head : List Task) : Int → List Int → Option (Int × List Int)
  | id, [] => if list_hasID head id then none else some (id, [])
  | id, i :: rest =>
    if list_hasID head id then list_restoreTask_newID head i rest else some (id, i :: rest)

/-- The placement part of `list_restoreTask`, after the id conflict has been resolved. -/
def list_restoreTask_place (s : State) (task : Task) (position : TaskPosition)
    (target_id : Int) : State :=
  match position, s.head_list with
  | TaskPosition.POS_HEAD, _ =>
    insertIntoTrees
      { s with head_list := task :: s.head_list,
               list_counter := listCounter_increment s.list_counter } task
  | _, [] =>
    insertIntoTrees
      { s with head_list := [task],
               list_counter := listCounter_increment s.list_counter } task
  | TaskPosition.POS_END, h :: rest =>
    insertIntoTrees
      { s with head_list := list_linkAtEnd task h rest,
               list_counter := listCounter_increment s.list_counter } task
  | TaskPosition.POS_MIDDLE, h :: rest =>
    match list_linkAfterID target_id task (h :: rest) with
    | none =>
      insertIntoTrees
        { s with head_list := task :: h :: rest,
                 list_counter := listCounter_increment s.list_counter } task
    | some l =>
      insertIntoTrees
        { s with head_list := l,
                 list_counter := listCounter_increment s.list_counter } task

/-- The function `list_restoreTask`. `inputs` are the answers `readInt` will return; the
result is the new state with the unread answers, or `none` when the id prompt never ends. -/
def list_restoreTask (s : State) (inputs : List Int) : Option (State × List Int) :=
  match stack_pop s.undo_stack with
  | none => some (s, inputs)
  | some (n, stack1) =>
    match list_restoreTask_newID s.head_list n.task.id inputs with
    | none => none
    | some (id1, inputs1) =>
      some (list_restoreTask_place { s with undo_stack := stack1 }
              (n.task.setId id1) n.position n.target_id, inputs1)

/-- The walk `while (current->next->next != NULL) current = current->next` of
`list_removeFromEnd` on a list of at least two nodes, given as `current`, its successor and
the rest: returns the task of the last node and the list with that node unlinked. -/
def list_unlinkLast : Task → Task → List Task → Task × List Task
  | current, n, [] => (n, [current])
  | current, n, m :: rest =>
    let r := list_unlinkLast n m rest
    (r.1, current :: r.2)

/-- The function `list_removeFromEnd`, seen from its caller. It returns nothing, so the
caller keeps its `head` pointer. With two or more nodes the last one is unlinked in place.
With a single node that node is pushed and freed and only the local `head` is set to `NULL`:
the caller still holds the pointer to the freed node, and the model keeps its last contents. -/
def list_removeFromEnd (s : State) : State :=
  match s.head_list with
  | [] => s
  | [h] =>
    { s with undo_stack := stack_push s.undo_stack h TaskPosition.POS_HEAD 0,
             list_counter := listCounter_decrement s.list_counter }
  | h :: n :: rest =>
    let r := list_unlinkLast h n rest
    { s with undo_stack := stack_push s.undo_stack r.1 TaskPosition.POS_END 0,
             head_list := r.2,
             list_counter := listCounter_decrement s.list_counter }

/-- The loop of `list_freeAll`: every task is pushed with `POS_HEAD`, from the head on. -/
def list_freeAll_loop : List Task → Stack → Stack
  | [], stack => stack
  | temp :: rest, stack => list_freeAll_loop rest (stack_push stack temp TaskPosition.POS_HEAD 0)

/-- The function `list_freeAll` together with the `head = NULL` that both of its callers
(`main` and `file_loadTasks`) execute right after the call. -/
def list_freeAll (s : State) : State :=
  { s with undo_stack := list_freeAll_loop s.head_list s.undo_stack,
           head_list := [],
           list_counter := listCounter_reset }

/-- The loop of `stack_clear`: one `stack_pop` per node. -/
def stack_clear_loop : List StackNode → Int → Stack
  | [], size => { top := [], size := size }
  | _ :: rest, size => stack_clear_loop rest (size - 1)

/-- The function `stack_clear`. -/
def stack_clear (s : Stack) : Stack := stack_clear_loop s.top s.size

/-! ## file.c -/

/-- The file `tasks.dat` as `fread` sees it: the `int` header (`none` when fewer than four
bytes are there) and the complete `Task` records after it. Bytes of an incomplete last
record are not represented: reading them fails like reading past the end. -/
structure TaskFile where
  count : Option Int
  records : List Task
deriving DecidableEq, Repr, Inhabited

/-- The counting loop of `file_saveTasks`, `while (current) { count++; current =
current->next; }`, from node `current` on with the running `count`. The sequence is shorter
than `2^31` nodes, so the `int` does not overflow. -/
def file_saveTasks_count : List Task → Int → Int
  | [], count => count
  | _ :: rest, count => file_saveTasks_count rest (count + 1)

/-- The write loop of `file_saveTasks`, `while (current) { fwrite(current->task, ...);
current = current->next; }`, from node `current` on: every `fwrite` appends one record to
the records `written` so far. -/
def file_saveTasks_write : List Task → List Task → List Task
  | [], written => written
  | current :: rest, written => file_saveTasks_write rest (written ++ [current])

/-- The function `file_saveTasks`: the file after the call. `openOk` tells whether `fopen`
succeeds, `disk` is the file before the call (`none`: no such file). Opening with `"wb"`
empties the file; then the count found by the counting loop is written, then the records of
the write loop. -/
def file_saveTasks (openOk : Bool) (disk : Option TaskFile) (head : List Task) : Option TaskFile :=
  if openOk then
    some { count := some (file_saveTasks_count head 0),
           records := file_saveTasks_write head [] }
  else disk

/-- The `for` loop of `file_loadTasks`, with `n` the rounds left and `records` the unread
records. A failed `fread` reports an error and goes on; a record read is linked in front of
the list, counted and inserted into the three trees. Returns the state and the number of
read errors reported. -/
def file_loadTasks_loop : Nat → List Task → State → Nat → State × Nat
  | 0, _, s, errors => (s, errors)
  | n + 1, [], s, errors => file_loadTasks_loop n [] s (errors + 1)
  | n + 1, new_task :: rest, s, errors =>
    file_loadTasks_loop n rest
      (insertIntoTrees
        { s with head_list := new_task :: s.head_list,
                 list_counter := listCounter_increment s.list_counter } new_task) errors

/-- The function `file_loadTasks`: the state after the call and the number of read errors
reported. `disk = none` is a file that cannot be opened. -/
def file_loadTasks (disk : Option TaskFile) (s : State) : State × Nat :=
  match disk with
  | none => (s, 0)
  | some f =>
    match f.count with
    | none => (s, 0)
    | some count => file_loadTasks_loop count.toNat f.records (list_freeAll s) 0

/-! ## main.c: the "Add a task" and "Remove a task" menus -/

/-- The commands of the two menus, with the values the user types in. -/
inductive Command where
  | addHead (t : Task)
  | addAfter (anchorId : Int) (t : Task)
  | addEnd (t : Task)
  | removeHead
  | removeEnd
  | removeById (id : Int)
  | clearAll
  | undo (answers : List Int)
  | clearUndoHistory
deriving DecidableEq, Repr, Inhabited

/-- The state in which `main` enters its menu loop when there is no snapshot file. -/
def initialState : State :=
  { head_list := [],
    undo_stack := stack_create,
    id_tree := tree_create SortKey.KEY_ID,
    priority_tree := tree_create SortKey.KEY_PRIORITY,
    status_tree := tree_create SortKey.KEY_STATUS,
    list_counter := 0 }

/-- One menu command, as dispatched by the `switch` of `main`; `none` when the command never
returns (an undo whose id prompt is never answered with a free id). For "Clear undo stack"
`main` calls `stack_clear` on the old stack and then replaces it by a new `stack_create()`. -/
def runCommand (s : State) : Command → Option State
  | Command.addHead t => some (list_addToHead s t)
  | Command.addAfter anchorId t => some (list_addToMiddle s anchorId t)
  | Command.addEnd t => some (list_addToEnd s t)
  | Command.removeHead => some (list_removeFromHead s)
  | Command.removeEnd => some (list_removeFromEnd s)
  | Command.removeById id => some (list_removeByID s id)
  | Command.clearAll => some (list_freeAll s)
  | Command.undo answers =>
    match list_restoreTask s answers with
    | none => none
    | some r => some r.1
  | Command.clearUndoHistory => some { s with undo_stack := stack_create }

/-- A sequence of menu commands, run from state `s`. -/
def runCommands (s : State) : List Command → Option State
  | [] => some s
  | c :: cs =>
    match runCommand s c with
    | none => none
    | some s1 => runCommands s1 cs

/-- A task with the given id and fixed other fields, for concrete runs. -/
def sampleTask (id : Int) : Task :=
  { id := id, title := "t", description := "d", priority := 1, status := 1 }


/-- A state with the given list and undo entries (size field in step with the entries), the
trees and the counter as in `initialState`; for concrete runs. -/
def sampleState (head : List Task) (undo : List StackNode) : State :=
  { initialState with
    head_list := head,
    undo_stack := { top := undo, size := Int.ofNat undo.length } }

/-! ## Runs of stack calls, index rebuilds and `list_updateTask` -/

/-- Up to `n` calls of `stack_pop` in a row, stopping at the first `NULL`: the entries
returned, in the order returned, and the stack left. -/
def stack_popN : Nat → Stack → List StackNode × Stack
  | 0, s => ([], s)
  | n + 1, s =>
    match stack_pop s with
    | none => ([], s)
    | some (e, s1) => ((e :: (stack_popN n s1).1), (stack_popN n s1).2)

/-- A call of one of the three mutating functions of `stack.c`. -/
inductive StackCall where
  | push (task : Task) (position : TaskPosition) (target_id : Int)
  | pop
  | clear
deriving DecidableEq, Repr, Inhabited

/-- The stack after one call; a `stack_pop` on the empty stack returns `NULL` and leaves it. -/
def stack_call (s : Stack) : StackCall → Stack
  | StackCall.push task position target_id => stack_push s task position target_id
  | StackCall.pop =>
    match stack_pop s with
    | none => s
    | some (_, s1) => s1
  | StackCall.clear => stack_clear s

/-- The stack after a sequence of calls. -/
def stack_calls (s : Stack) (calls : List StackCall) : Stack := calls.foldl stack_call s

/-- The function `tree_insert` called for each task of a list in turn, first task first. -/
def tree_insertAll (tree : Tree) (tasks : List Task) : Tree := tasks.foldl tree_insert tree

/-- No difference of two keys among the given tasks leaves the range of a 32-bit `int`. -/
def keyDifferencesFit (key : SortKey) (tasks : List Task) : Prop :=
  ∀ a ∈ tasks, ∀ b ∈ tasks,
    -2147483648 ≤ taskKey key a - taskKey key b ∧ taskKey key a - taskKey key b ≤ 2147483647

instance keyDifferencesFit_decidable (key : SortKey) (tasks : List Task) :
    Decidable (keyDifferencesFit key tasks) := by
  unfold keyDifferencesFit
  exact inferInstance

/-- The stable sort of a task list by a key, as the specification words it: insertion sort
with the order "key of `a` at most key of `b`", which puts every task before the tasks of
equal key that follow it in the input. -/
def stableSortByKey (key : SortKey) (tasks : List Task) : List Task :=
  List.insertionSort (fun a b => taskKey key a ≤ taskKey key b) tasks

/-- The search-tree order that `tree_insertNode` maintains: at every node the tasks of the
left subtree have a smaller key and those of the right subtree a key at least as large. -/
def TreeNode.ordered (key : SortKey) : TreeNode → Prop
  | TreeNode.null => True
  | TreeNode.node t l r =>
    (∀ a ∈ tree_inorderNode l, taskKey key a < taskKey key t) ∧
    (∀ b ∈ tree_inorderNode r, taskKey key t ≤ taskKey key b) ∧
    TreeNode.ordered key l ∧ TreeNode.ordered key r

/-- The two assignments `task->priority = ...; task->status = ...` of `list_updateTask`. -/
def Task.setPriorityStatus (t : Task) (priority status : Int) : Task :=
  { t with priority := priority, status := status }

/-- The search `while (current != NULL && current->task->id != target_id)` of
`list_updateTask` followed by the two assignments on the task found; `none` when the search
ends with `current == NULL`. -/
def list_updateTask_search (target_id : Int) (priority status : Int) :
    List Task → Option (List Task)
  | [] => none
  | c :: rest =>
    if c.id ≠ target_id then
      match list_updateTask_search target_id priority status rest with
      | none => none
      | some l => some (c :: l)
    else some (c.setPriorityStatus priority status :: rest)

/-- The function `list_updateTask`, with `target_id` the id read from the user and
`priority`, `status` the values accepted by `readIntInRange`. On the empty list and when no
task has the id nothing is done. Otherwise the two fields of the task found are assigned, and
then the code runs `tree_free(priority_tree); tree_free(status_tree);` followed by
`*priority_tree = *tree_create(KEY_PRIORITY); *status_tree = *tree_create(KEY_STATUS);` and
the loop that inserts every task of the list into both trees. The two assignments write
through the pointers that `tree_free` has just freed, so the call has no defined result:
`none`. The id tree is not touched. -/
def list_updateTask (s : State) (target_id : Int) (priority status : Int) : Option State :=
  match list_updateTask_search target_id priority status s.head_list with
  | none => some s
  | some l =>
    match tree_assignCreated (tree_free s.priority_tree) SortKey.KEY_PRIORITY,
          tree_assignCreated (tree_free s.status_tree) SortKey.KEY_STATUS with
    | some priority_tree, some status_tree =>
      some { s with head_list := l,
                    priority_tree := tree_insertAll priority_tree l,
                    status_tree := tree_insertAll status_tree l }
    | _, _ => none

/-! ## Input taken by `list_addToMiddle`, and the save menu entry -/

/-- The search `while (current != NULL && current->task->id != target_id)` on its own: the
task of the node the loop stops at, `none` when it ends with `current == NULL`. -/
def list_searchID (target_id : Int) : List Task → Option Task
  | [] => none
  | c :: rest => if c.id ≠ target_id then list_searchID target_id rest else some c

/-- The function `list_addToMiddle` with the task input explicit. `pending` lists the tasks
that the coming calls of `fillTask` would read from the user, in order. The search runs
first; `fillTask` is called only when it has found the anchor, and then takes the first
pending task. Returns the state and the input not yet read; `none` when `fillTask` is
reached and no input ever comes. -/
def list_addToMiddle_reading (s : State) (target_id : Int) (pending : List Task) :
    Option (State × List Task) :=
  match list_searchID target_id s.head_list with
  | none => some (s, pending)
  | some _ =>
    match pending with
    | [] => none
    | new_task :: rest => some (list_addToMiddle s target_id new_task, rest)

/-- The menu entry "Save tasks to file" of `main`: the call `file_saveTasks(head_list)`.
The callee receives the head pointer only, assigns to no node or task reached from it and
calls no counter, stack or tree function, and it returns nothing; so the state `main` goes
on with is the one it had. The result is that state and the file after the call. -/
def main_saveTasks (openOk : Bool) (disk : Option TaskFile) (s : State) :
    State × Option TaskFile :=
  (s, file_saveTasks openOk disk s.head_list)

/-- The stack entry that `list_removeFromHead` and `list_freeAll` push for a task: position
`POS_HEAD`, anchor id 0. -/
def headEntry (t : Task) : StackNode :=
  { task := t, position := TaskPosition.POS_HEAD, target_id := 0 }

/-! ## Lemmas on the list walks -/

theorem list_hasID_iff (head : List Task) (id : Int) :
    list_hasID head id = true ↔ ∃ t ∈ head, t.id = id := by
  induction head with
  | nil => simp [list_hasID]
  | cons t rest ih =>
    by_cases h : t.id = id
    · simp [list_hasID, h]
    · simp [list_hasID, h, ih]

theorem list_hasID_eq_false_iff (head : List Task) (id : Int) :
    list_hasID head id = false ↔ ∀ t ∈ head, t.id ≠ id := by
  rw [← Bool.not_eq_true, list_hasID_iff]
  simp

theorem list_linkAtEnd_eq (new_task h : Task) (rest : List Task) :
    list_linkAtEnd new_task h rest = (h :: rest) ++ [new_task] := by
  induction rest generalizing h with
  | nil => rfl
  | cons n rest ih => simp [list_linkAtEnd, ih]

theorem list_linkAfterID_none (target_id : Int) (new_task : Task) (l : List Task)
    (h : ∀ c ∈ l, c.id ≠ target_id) : list_linkAfterID target_id new_task l = none := by
  induction l with
  | nil => rfl
  | cons c rest ih =>
    have hc : c.id ≠ target_id := h c (List.mem_cons_self _ _)
    have hr : ∀ d ∈ rest, d.id ≠ target_id := fun d hd => h d (List.mem_cons_of_mem _ hd)
    simp [list_linkAfterID, hc, ih hr]

theorem list_linkAfterID_some (target_id : Int) (new_task : Task) (pre : List Task) (a : Task)
    (post : List Task) (hpre : ∀ c ∈ pre, c.id ≠ target_id) (ha : a.id = target_id) :
    list_linkAfterID target_id new_task (pre ++ a :: post) = some (pre ++ a :: new_task :: post) := by
  induction pre with
  | nil => simp [list_linkAfterID, ha]
  | cons c rest ih =>
    have hc : c.id ≠ target_id := hpre c (List.mem_cons_self _ _)
    have hr : ∀ d ∈ rest, d.id ≠ target_id := fun d hd => hpre d (List.mem_cons_of_mem _ hd)
    simp [list_linkAfterID, hc, ih hr]

/-- A list holding a task with the given id splits at the first such task. -/
theorem exists_first_with_id (l : List Task) (target_id : Int)
    (h : ∃ c ∈ l, c.id = target_id) :
    ∃ pre a post, l = pre ++ a :: post ∧ (∀ c ∈ pre, c.id ≠ target_id) ∧ a.id = target_id := by
  induction l with
  | nil => simp at h
  | cons c rest ih =>
    by_cases hc : c.id = target_id
    · exact ⟨[], c, rest, rfl, by simp, hc⟩
    · have hrest : ∃ d ∈ rest, d.id = target_id := by
        obtain ⟨d, hd, hdid⟩ := h
        rcases List.mem_cons.mp hd with rfl | hd
        · exact absurd hdid hc
        · exact ⟨d, hd, hdid⟩
      obtain ⟨pre, a, post, hl, hpre, ha⟩ := ih hrest
      refine ⟨c :: pre, a, post, by simp [hl], ?_, ha⟩
      intro d hd
      rcases List.mem_cons.mp hd with rfl | hd
      · exact hc
      · exact hpre d hd

/-! ## Lemmas on `list_restoreTask` -/

/-- The id loop ends with the first id, among the task's own and the answers, that is free. -/
theorem list_restoreTask_newID_of_find (head : List Task) (id : Int) (inputs : List Int)
    (id1 : Int)
    (h : (id :: inputs).find? (fun i => !list_hasID head i) = some id1) :
    ∃ inputs1, list_restoreTask_newID head id inputs = some (id1, inputs1) := by
  induction inputs generalizing id with
  | nil =>
    cases hh : list_hasID head id
    · simp only [List.find?, hh, Bool.not_false, Option.some.injEq] at h
      subst h
      exact ⟨[], by simp [list_restoreTask_newID, hh]⟩
    · simp [List.find?, hh] at h
  | cons i rest ih =>
    cases hh : list_hasID head id
    · simp only [List.find?_cons, hh, Bool.not_false, Option.some.injEq] at h
      subst h
      exact ⟨i :: rest, by simp [list_restoreTask_newID, hh]⟩
    · rw [List.find?_cons] at h
      simp only [hh, Bool.not_true] at h
      obtain ⟨inputs1, h1⟩ := ih i h
      exact ⟨inputs1, by simp [list_restoreTask_newID, hh, h1]⟩

theorem insertIntoTrees_head_list (s : State) (task : Task) :
    (insertIntoTrees s task).head_list = s.head_list := rfl

/-- With a non-empty stack and an id prompt that ends, `list_restoreTask` returns the state
in which the popped task, carrying the id the prompt ended with, has been placed. -/
theorem list_restoreTask_of_top (s : State) (inputs : List Int) (e : StackNode)
    (rest : List StackNode) (id1 : Int)
    (htop : s.undo_stack.top = e :: rest)
    (hid : (e.task.id :: inputs).find? (fun i => !list_hasID s.head_list i) = some id1) :
    ∃ inputs1, list_restoreTask s inputs =
      some (list_restoreTask_place
              { s with undo_stack := { top := rest, size := s.undo_stack.size - 1 } }
              (e.task.setId id1) e.position e.target_id, inputs1) := by
  obtain ⟨inputs1, h1⟩ := list_restoreTask_newID_of_find s.head_list e.task.id inputs id1 hid
  exact ⟨inputs1, by simp [list_restoreTask, stack_pop, htop, h1]⟩

theorem list_restoreTask_place_head (s : State) (task : Task) (position : TaskPosition)
    (target_id : Int) (h : position = TaskPosition.POS_HEAD ∨ s.head_list = []) :
    (list_restoreTask_place s task position target_id).head_list = task :: s.head_list := by
  rcases h with h | h
  · subst h
    simp [list_restoreTask_place, insertIntoTrees_head_list]
  · cases position <;> simp [list_restoreTask_place, h, insertIntoTrees_head_list]

theorem list_restoreTask_place_end (s : State) (task : Task) (target_id : Int)
    (h : s.head_list ≠ []) :
    (list_restoreTask_place s task TaskPosition.POS_END target_id).head_list =
      s.head_list ++ [task] := by
  cases hl : s.head_list with
  | nil => exact absurd hl h
  | cons a l => simp [list_restoreTask_place, hl, insertIntoTrees_head_list, list_linkAtEnd_eq]

theorem list_restoreTask_place_middle_absent (s : State) (task : Task) (target_id : Int)
    (h : ∀ c ∈ s.head_list, c.id ≠ target_id) :
    (list_restoreTask_place s task TaskPosition.POS_MIDDLE target_id).head_list =
      task :: s.head_list := by
  cases hl : s.head_list with
  | nil => simp [list_restoreTask_place, hl, insertIntoTrees_head_list]
  | cons a l =>
    have hnone := list_linkAfterID_none target_id task (a :: l) (by rw [← hl]; exact h)
    simp [list_restoreTask_place, hl, insertIntoTrees_head_list, hnone]

theorem list_restoreTask_place_middle_present (s : State) (task : Task) (target_id : Int)
    (pre : List Task) (a : Task) (post : List Task)
    (hl : s.head_list = pre ++ a :: post)
    (hpre : ∀ c ∈ pre, c.id ≠ target_id) (ha : a.id = target_id) :
    (list_restoreTask_place s task TaskPosition.POS_MIDDLE target_id).head_list =
      pre ++ a :: task :: post := by
  have hsome := list_linkAfterID_some target_id task pre a post hpre ha
  cases hl2 : s.head_list with
  | nil => rw [hl] at hl2; simp at hl2
  | cons b l =>
    rw [hl] at hl2
    rw [hl2] at hsome
    simp [list_restoreTask_place, hl, hl2, insertIntoTrees_head_list, hsome]


theorem list_restoreTask_place_perm (s : State) (task : Task) (position : TaskPosition)
    (target_id : Int) :
    List.Perm (list_restoreTask_place s task position target_id).head_list
      (task :: s.head_list) := by
  cases position with
  | POS_HEAD =>
    rw [list_restoreTask_place_head s task _ target_id (Or.inl rfl)]
  | POS_END =>
    by_cases hl : s.head_list = []
    · rw [list_restoreTask_place_head s task _ target_id (Or.inr hl)]
    · rw [list_restoreTask_place_end s task target_id hl]
      exact List.perm_append_singleton task s.head_list
  | POS_MIDDLE =>
    by_cases h : ∃ c ∈ s.head_list, c.id = target_id
    · obtain ⟨pre, a, post, hl, hpre, ha⟩ := exists_first_with_id s.head_list target_id h
      rw [list_restoreTask_place_middle_present s task target_id pre a post hl hpre ha, hl]
      have h1 : List.Perm ((pre ++ [a]) ++ task :: post) (task :: ((pre ++ [a]) ++ post)) :=
        List.perm_middle
      simpa using h1
    · have habs : ∀ c ∈ s.head_list, c.id ≠ target_id := by
        intro c hc hid
        exact h ⟨c, hc, hid⟩
      rw [list_restoreTask_place_middle_absent s task target_id habs]

/-! ## The undo protocol (claims C6 to C10) -/

/-- C6: when the primary sequence is non-empty, the top undo entry has position Middle and
no task of the sequence has the entry's anchor id, an undo whose id prompt ends returns, and
the new sequence is the restored task (carrying the id the prompt ended with) followed by
the old sequence unchanged. -/
theorem C6_undo_middle_anchor_absent_goes_to_head (s : State) (inputs : List Int)
    (e : StackNode) (rest : List StackNode) (id1 : Int)
    (_hne : s.head_list ≠ [])
    (htop : s.undo_stack.top = e :: rest)
    (hpos : e.position = TaskPosition.POS_MIDDLE)
    (habs : ∀ c ∈ s.head_list, c.id ≠ e.target_id)
    (hid : (e.task.id :: inputs).find? (fun i => !list_hasID s.head_list i) = some id1) :
    ∃ s1 inputs1, list_restoreTask s inputs = some (s1, inputs1) ∧
      s1.head_list = (e.task.setId id1) :: s.head_list := by
  obtain ⟨inputs1, h1⟩ := list_restoreTask_of_top s inputs e rest id1 htop hid
  refine ⟨_, inputs1, h1, ?_⟩
  rw [hpos]
  exact list_restoreTask_place_middle_absent _ _ _ habs

theorem C6_witness :
    (sampleState [sampleTask 1, sampleTask 2]
        [{ task := sampleTask 3, position := TaskPosition.POS_MIDDLE, target_id := 7 }]
      ).head_list ≠ [] ∧
    ∃ s1 inputs1,
      list_restoreTask
        (sampleState [sampleTask 1, sampleTask 2]
          [{ task := sampleTask 3, position := TaskPosition.POS_MIDDLE, target_id := 7 }])
        [] = some (s1, inputs1) ∧
      s1.head_list = [sampleTask 3, sampleTask 1, sampleTask 2] :=
  ⟨by decide,
   C6_undo_middle_anchor_absent_goes_to_head
    (sampleState [sampleTask 1, sampleTask 2]
      [{ task := sampleTask 3, position := TaskPosition.POS_MIDDLE, target_id := 7 }])
    [] { task := sampleTask 3, position := TaskPosition.POS_MIDDLE, target_id := 7 } [] 3
    (by decide) rfl rfl (by decide) (by decide)⟩

/-- C7: when the top undo entry has position Middle and some task of the primary sequence
has the entry's anchor id, an undo whose id prompt ends returns, and the restored task is
linked immediately after the first task with that id: the sequence splits as
`pre ++ a :: post` with `a` the first task carrying the anchor id, the new sequence is
`pre ++ a :: restored :: post`, and it is one longer than the old one. -/
theorem C7_undo_middle_anchor_present_links_after_anchor (s : State) (inputs : List Int)
    (e : StackNode) (rest : List StackNode) (id1 : Int)
    (htop : s.undo_stack.top = e :: rest)
    (hpos : e.position = TaskPosition.POS_MIDDLE)
    (hanchor : ∃ c ∈ s.head_list, c.id = e.target_id)
    (hid : (e.task.id :: inputs).find? (fun i => !list_hasID s.head_list i) = some id1) :
    ∃ s1 inputs1 pre a post, list_restoreTask s inputs = some (s1, inputs1) ∧
      s.head_list = pre ++ a :: post ∧
      (∀ c ∈ pre, c.id ≠ e.target_id) ∧ a.id = e.target_id ∧
      s1.head_list = pre ++ a :: (e.task.setId id1) :: post ∧
      s1.head_list.length = s.head_list.length + 1 := by
  obtain ⟨inputs1, h1⟩ := list_restoreTask_of_top s inputs e rest id1 htop hid
  obtain ⟨pre, a, post, hl, hpre, ha⟩ := exists_first_with_id s.head_list e.target_id hanchor
  have hplace := list_restoreTask_place_middle_present
    { s with undo_stack := { top := rest, size := s.undo_stack.size - 1 } }
    (e.task.setId id1) e.target_id pre a post hl hpre ha
  rw [← hpos] at hplace
  refine ⟨_, inputs1, pre, a, post, h1, hl, hpre, ha, hplace, ?_⟩
  rw [hplace, hl]
  simp only [List.length_append, List.length_cons]
  omega

theorem C7_witness :
    ∃ s1 inputs1 pre a post,
      list_restoreTask
        (sampleState [sampleTask 1, sampleTask 2, sampleTask 4]
          [{ task := sampleTask 3, position := TaskPosition.POS_MIDDLE, target_id := 2 }])
        [] = some (s1, inputs1) ∧
      (sampleState [sampleTask 1, sampleTask 2, sampleTask 4]
          [{ task := sampleTask 3, position := TaskPosition.POS_MIDDLE, target_id := 2 }]).head_list
        = pre ++ a :: post ∧
      (∀ c ∈ pre, c.id ≠ 2) ∧ a.id = 2 ∧
      s1.head_list = pre ++ a :: sampleTask 3 :: post ∧
      s1.head_list.length = 3 + 1 :=
  C7_undo_middle_anchor_present_links_after_anchor
    (sampleState [sampleTask 1, sampleTask 2, sampleTask 4]
      [{ task := sampleTask 3, position := TaskPosition.POS_MIDDLE, target_id := 2 }])
    [] { task := sampleTask 3, position := TaskPosition.POS_MIDDLE, target_id := 2 } [] 3
    rfl rfl ⟨sampleTask 2, by decide, rfl⟩ (by decide)

/-- C8: when the undo stack is non-empty and its top entry has position Head, or the
primary sequence is empty whatever the entry's position, an undo whose id prompt ends
returns, and the restored task is the first element of the new sequence, followed by the old
sequence unchanged. -/
theorem C8_undo_head_or_empty_sequence_goes_to_head (s : State) (inputs : List Int)
    (e : StackNode) (rest : List StackNode) (id1 : Int)
    (htop : s.undo_stack.top = e :: rest)
    (hpos : e.position = TaskPosition.POS_HEAD ∨ s.head_list = [])
    (hid : (e.task.id :: inputs).find? (fun i => !list_hasID s.head_list i) = some id1) :
    ∃ s1 inputs1, list_restoreTask s inputs = some (s1, inputs1) ∧
      s1.head_list = (e.task.setId id1) :: s.head_list := by
  obtain ⟨inputs1, h1⟩ := list_restoreTask_of_top s inputs e rest id1 htop hid
  exact ⟨_, inputs1, h1, list_restoreTask_place_head _ _ _ _ hpos⟩

theorem C8_witness :
    ∃ s1 inputs1,
      list_restoreTask
        (sampleState [sampleTask 1, sampleTask 2]
          [{ task := sampleTask 1, position := TaskPosition.POS_HEAD, target_id := 0 }])
        [2, 5, 6] = some (s1, inputs1) ∧
      s1.head_list = [sampleTask 5, sampleTask 1, sampleTask 2] :=
  C8_undo_head_or_empty_sequence_goes_to_head
    (sampleState [sampleTask 1, sampleTask 2]
      [{ task := sampleTask 1, position := TaskPosition.POS_HEAD, target_id := 0 }])
    [2, 5, 6] { task := sampleTask 1, position := TaskPosition.POS_HEAD, target_id := 0 } [] 5
    rfl (Or.inl rfl) (by decide)

/-- C9: when the primary sequence is non-empty and the top undo entry has position End, an
undo whose id prompt ends returns, and the restored task is the last element of the new
sequence, preceded by the old sequence unchanged. -/
theorem C9_undo_end_goes_to_end (s : State) (inputs : List Int)
    (e : StackNode) (rest : List StackNode) (id1 : Int)
    (hne : s.head_list ≠ [])
    (htop : s.undo_stack.top = e :: rest)
    (hpos : e.position = TaskPosition.POS_END)
    (hid : (e.task.id :: inputs).find? (fun i => !list_hasID s.head_list i) = some id1) :
    ∃ s1 inputs1, list_restoreTask s inputs = some (s1, inputs1) ∧
      s1.head_list = s.head_list ++ [(e.task.setId id1)] := by
  obtain ⟨inputs1, h1⟩ := list_restoreTask_of_top s inputs e rest id1 htop hid
  refine ⟨_, inputs1, h1, ?_⟩
  rw [hpos]
  exact list_restoreTask_place_end _ _ _ hne

theorem C9_witness :
    ∃ s1 inputs1,
      list_restoreTask
        (sampleState [sampleTask 1, sampleTask 2]
          [{ task := sampleTask 3, position := TaskPosition.POS_END, target_id := 0 }])
        [] = some (s1, inputs1) ∧
      s1.head_list = [sampleTask 1, sampleTask 2] ++ [sampleTask 3] :=
  C9_undo_end_goes_to_end
    (sampleState [sampleTask 1, sampleTask 2]
      [{ task := sampleTask 3, position := TaskPosition.POS_END, target_id := 0 }])
    [] { task := sampleTask 3, position := TaskPosition.POS_END, target_id := 0 } [] 3
    (by decide) rfl rfl (by decide)

/-- C10: when the ids of the primary sequence are pairwise distinct and the undo's id prompt
ends, undo returns and inserts the popped task with an id carried by no task of the old
sequence: its own id when that is free, otherwise the first answer that is free. The new
sequence is the old one with that task added, and its ids are again pairwise distinct. -/
theorem C10_undo_resolves_id_conflict (s : State) (inputs : List Int)
    (e : StackNode) (rest : List StackNode) (id1 : Int)
    (hnodup : (s.head_list.map Task.id).Nodup)
    (htop : s.undo_stack.top = e :: rest)
    (hid : (e.task.id :: inputs).find? (fun i => !list_hasID s.head_list i) = some id1) :
    ∃ s1 inputs1, list_restoreTask s inputs = some (s1, inputs1) ∧
      (∀ c ∈ s.head_list, c.id ≠ id1) ∧
      (list_hasID s.head_list e.task.id = false → id1 = e.task.id) ∧
      (list_hasID s.head_list e.task.id = true →
        inputs.find? (fun i => !list_hasID s.head_list i) = some id1) ∧
      List.Perm s1.head_list ((e.task.setId id1) :: s.head_list) ∧
      (s1.head_list.map Task.id).Nodup := by
  obtain ⟨inputs1, h1⟩ := list_restoreTask_of_top s inputs e rest id1 htop hid
  have hfree : list_hasID s.head_list id1 = false := by
    have := List.find?_some hid
    simpa using this
  have hfree2 : ∀ c ∈ s.head_list, c.id ≠ id1 := (list_hasID_eq_false_iff _ _).mp hfree
  have hperm := list_restoreTask_place_perm
    { s with undo_stack := { top := rest, size := s.undo_stack.size - 1 } }
    (e.task.setId id1) e.position e.target_id
  refine ⟨_, inputs1, h1, hfree2, ?_, ?_, hperm, ?_⟩
  · intro hown
    rw [List.find?_cons] at hid
    simp only [hown, Bool.not_false, Option.some.injEq] at hid
    exact hid.symm
  · intro hown
    rw [List.find?_cons] at hid
    simpa only [hown, Bool.not_true] using hid
  · have hp := (hperm.map Task.id)
    rw [hp.nodup_iff]
    simp only [List.map_cons, List.nodup_cons, List.mem_map, not_exists, not_and]
    exact ⟨fun c hc => hfree2 c hc, hnodup⟩

theorem C10_witness :
    ((sampleState [sampleTask 1, sampleTask 2]
        [{ task := sampleTask 1, position := TaskPosition.POS_MIDDLE, target_id := 1 }]
      ).head_list.map Task.id).Nodup ∧
    ∃ s1 inputs1,
      list_restoreTask
        (sampleState [sampleTask 1, sampleTask 2]
          [{ task := sampleTask 1, position := TaskPosition.POS_MIDDLE, target_id := 1 }])
        [2, 5, 6] = some (s1, inputs1) ∧
      (∀ c ∈ [sampleTask 1, sampleTask 2], c.id ≠ 5) ∧
      (list_hasID [sampleTask 1, sampleTask 2] 1 = false → (5 : Int) = 1) ∧
      (list_hasID [sampleTask 1, sampleTask 2] 1 = true →
        [2, 5, 6].find? (fun i => !list_hasID [sampleTask 1, sampleTask 2] i) = some 5) ∧
      List.Perm s1.head_list (sampleTask 5 :: [sampleTask 1, sampleTask 2]) ∧
      (s1.head_list.map Task.id).Nodup :=
  ⟨by decide,
   C10_undo_resolves_id_conflict
    (sampleState [sampleTask 1, sampleTask 2]
      [{ task := sampleTask 1, position := TaskPosition.POS_MIDDLE, target_id := 1 }])
    [2, 5, 6] { task := sampleTask 1, position := TaskPosition.POS_MIDDLE, target_id := 1 } [] 5
    (by decide) rfl (by decide)⟩


/-! ## Lemmas on tree insertion and on the placement of a restored task -/

theorem tree_inorderNode_insertNode_perm (node : TreeNode) (task : Task) (key : SortKey) :
    List.Perm (tree_inorderNode (tree_insertNode node task key))
      (task :: tree_inorderNode node) := by
  induction node with
  | null => simp [tree_insertNode, tree_inorderNode]
  | node t l r ihl ihr =>
    unfold tree_insertNode
    split
    · simp only [tree_inorderNode]
      exact ihl.append_right _
    · simp only [tree_inorderNode]
      have h1 : List.Perm (tree_inorderNode l ++ t :: tree_inorderNode (tree_insertNode r task key))
          (tree_inorderNode l ++ t :: task :: tree_inorderNode r) :=
        (ihr.cons t).append_left _
      have h2 : List.Perm ((tree_inorderNode l ++ [t]) ++ task :: tree_inorderNode r)
          (task :: ((tree_inorderNode l ++ [t]) ++ tree_inorderNode r)) := List.perm_middle
      have h3 : List.Perm (tree_inorderNode l ++ t :: task :: tree_inorderNode r)
          (task :: (tree_inorderNode l ++ t :: tree_inorderNode r)) := by
        simpa using h2
      exact h1.trans h3

theorem tree_inorder_insert_perm (tree : Tree) (task : Task) :
    List.Perm (tree_inorder (tree_insert tree task)) (task :: tree_inorder tree) :=
  tree_inorderNode_insertNode_perm tree.root task tree.key

/-- Every branch of the placement links the task somewhere, counts it and inserts it into
the three trees. -/
theorem list_restoreTask_place_eq (s : State) (task : Task) (position : TaskPosition)
    (target_id : Int) :
    list_restoreTask_place s task position target_id =
      insertIntoTrees
        { s with head_list := (list_restoreTask_place s task position target_id).head_list,
                 list_counter := listCounter_increment s.list_counter } task := by
  unfold list_restoreTask_place
  split
  · rfl
  · rfl
  · rfl
  · split <;> rfl

/-! ## Delete then undo, and the snapshot round trip (claims C1 to C3) -/

/-- C1, the code at the failing input: on the sequence with ids 1, 2, 3 (undo stack
empty), removing id 3 and undoing at once gives the sequence 1, 3, 2, not 1, 2, 3: the
restored task comes back in front of its former predecessor. -/
theorem C1_removeById_then_undo_moves_task_forward :
    (list_restoreTask
        (list_removeByID (sampleState [sampleTask 1, sampleTask 2, sampleTask 3] []) 3) []).map
      (fun r => r.1.head_list) = some [sampleTask 1, sampleTask 3, sampleTask 2] := by
  decide

/-- C2, the code at the failing input: on the sequence with ids 1, 2, 3, removing id 3
(at index 2) pushes an entry with position Middle whose anchor id is 1, the id at index 0,
and not 2, the id of the task that preceded the removed one. -/
theorem C2_removeById_records_id_two_places_before :
    (list_removeByID (sampleState [sampleTask 1, sampleTask 2, sampleTask 3] []) 3).undo_stack.top
      = [{ task := sampleTask 3, position := TaskPosition.POS_MIDDLE, target_id := 1 }] := by
  decide

/-- C3, the code at the failing input: saving the sequence with ids 1, 2, 3 and loading
the file just written gives the sequence 3, 2, 1: the same three tasks in reverse order. -/
theorem C3_save_then_load_reverses_sequence :
    (file_loadTasks (file_saveTasks true none [sampleTask 1, sampleTask 2, sampleTask 3])
        initialState).1.head_list = [sampleTask 3, sampleTask 2, sampleTask 1] := by
  decide

/-! ## The indexes under the menu commands (claims C4 and C5) -/

/-- C4, the code at the failing input: after `addHead` of a task and `removeHead`, the
primary sequence is empty while each of the three indexes still holds the node of the
removed task (the task itself is on the undo stack). -/
theorem C4_removed_task_stays_in_indexes :
    (runCommands initialState [Command.addHead (sampleTask 1), Command.removeHead]).map
      (fun s => (s.head_list, tree_inorder s.id_tree, tree_inorder s.priority_tree,
        tree_inorder s.status_tree, s.undo_stack.top.map StackNode.task))
      = some ([], [sampleTask 1], [sampleTask 1], [sampleTask 1], [sampleTask 1]) := by
  decide

/-- C5, the code at the failing input: after `addHead` of a task with id -2 and `addHead`
of a task with id 2147483647, the in-order traversal of the id index lists the ids
2147483647, -2, which is not non-decreasing: the 32-bit difference 2147483647 - (-2) wraps
to a negative number, so the second task is linked to the left of the first. -/
theorem C5_id_index_out_of_order_after_two_inserts :
    (runCommands initialState
        [Command.addHead (sampleTask (-2)), Command.addHead (sampleTask 2147483647)]).map
      (fun s => (tree_inorder s.id_tree).map Task.id) = some [2147483647, -2] := by
  decide


/-! ## The undo stack (claims C11 to C13) -/

theorem stack_popN_fst (n : Nat) (s : Stack) : (stack_popN n s).1 = s.top.take n := by
  induction n generalizing s with
  | zero => simp [stack_popN]
  | succ n ih =>
    cases hs : s.top with
    | nil => simp [stack_popN, stack_pop, hs]
    | cons e rest => simp [stack_popN, stack_pop, hs, ih]

theorem stack_evictOldest_of_two (s : Stack) (h : 2 ≤ s.top.length) :
    stack_evictOldest s = { top := s.top.dropLast, size := s.size - 1 } := by
  unfold stack_evictOldest
  split
  · rename_i h0
    rw [h0] at h
    simp at h
  · rename_i e h1
    rw [h1] at h
    simp at h
  · rename_i a b rest h2
    rw [h2]

theorem stack_push_of_not_full (s : Stack) (task : Task) (position : TaskPosition)
    (target_id : Int) (h : s.size < 10) :
    stack_push s task position target_id =
      { top := { task := task, position := position, target_id := target_id } :: s.top,
        size := s.size + 1 } := by
  have hn : ¬ s.size ≥ MAX_STACK_SIZE := by
    unfold MAX_STACK_SIZE
    omega
  simp [stack_push, hn]

theorem stack_push_of_full (s : Stack) (task : Task) (position : TaskPosition)
    (target_id : Int) (h : 10 ≤ s.size) (hlen : 2 ≤ s.top.length) :
    stack_push s task position target_id =
      { top := { task := task, position := position, target_id := target_id } :: s.top.dropLast,
        size := s.size - 1 + 1 } := by
  have hn : s.size ≥ MAX_STACK_SIZE := by
    unfold MAX_STACK_SIZE
    omega
  simp [stack_push, hn, stack_evictOldest_of_two s hlen]

theorem stack_clear_loop_eq (l : List StackNode) (size : Int) :
    stack_clear_loop l size = { top := [], size := size - Int.ofNat l.length } := by
  induction l generalizing size with
  | nil => simp [stack_clear_loop]
  | cons e rest ih =>
    simp only [stack_clear_loop, ih, List.length_cons]
    congr 1
    simp only [Int.ofNat_eq_coe, Nat.cast_add, Nat.cast_one]
    omega

/-- One call keeps the size field in step with the chain and the chain at most 10 long. -/
theorem stack_call_keeps_size (s : Stack) (c : StackCall)
    (h : s.size = Int.ofNat s.top.length ∧ s.top.length ≤ 10) :
    (stack_call s c).size = Int.ofNat (stack_call s c).top.length ∧
      (stack_call s c).top.length ≤ 10 := by
  obtain ⟨hsize, hlen⟩ := h
  cases c with
  | push task position target_id =>
    simp only [stack_call]
    by_cases hfull : s.size < 10
    · rw [stack_push_of_not_full s task position target_id hfull]
      simp only [List.length_cons, Int.ofNat_eq_coe, Nat.cast_add, Nat.cast_one] at *
      omega
    · have h10 : s.top.length = 10 := by
        simp only [Int.ofNat_eq_coe] at hsize
        omega
      rw [stack_push_of_full s task position target_id (by omega) (by omega)]
      simp only [List.length_cons, List.length_dropLast, Int.ofNat_eq_coe, Nat.cast_add,
        Nat.cast_one] at *
      omega
  | pop =>
    simp only [stack_call, stack_pop]
    cases hs : s.top with
    | nil =>
      simp only [hs] at hsize hlen ⊢
      exact ⟨hsize, hlen⟩
    | cons e rest =>
      simp only [hs, List.length_cons, Int.ofNat_eq_coe, Nat.cast_add, Nat.cast_one] at *
      omega
  | clear =>
    simp only [stack_call, stack_clear, stack_clear_loop_eq, List.length_nil]
    simp only [Int.ofNat_eq_coe] at *
    omega

/-- C11: on a stack that holds exactly 10 entries, `es` (nine entries, top first) followed
by `bottom`, with size field 10, `stack_push` of a new entry gives the stack with the new
entry on top of `es` and size 10: `bottom` is unlinked, the other nine keep their order, and
any number of pops returns entries of the new entry followed by `es` only. -/
theorem C11_push_on_full_stack_evicts_bottom (s : Stack) (es : List StackNode)
    (bottom : StackNode) (task : Task) (position : TaskPosition) (target_id : Int)
    (htop : s.top = es ++ [bottom]) (hlen : es.length = 9) (hsize : s.size = 10) :
    stack_push s task position target_id =
      { top := { task := task, position := position, target_id := target_id } :: es,
        size := 10 } ∧
    ∀ n : Nat, (stack_popN n (stack_push s task position target_id)).1 =
      ({ task := task, position := position, target_id := target_id } :: es).take n := by
  have h2 : 2 ≤ s.top.length := by
    rw [htop]
    simp only [List.length_append, List.length_singleton]
    omega
  have hpush := stack_push_of_full s task position target_id (by omega) h2
  rw [htop, List.dropLast_concat, hsize] at hpush
  have hpush2 : stack_push s task position target_id =
      { top := { task := task, position := position, target_id := target_id } :: es,
        size := 10 } := by
    rw [hpush]
    rfl
  refine ⟨hpush2, ?_⟩
  intro n
  rw [stack_popN_fst, hpush2]

theorem C11_witness :
    stack_push
        { top := (List.range 9).map (fun i =>
            { task := sampleTask (Int.ofNat i), position := TaskPosition.POS_HEAD,
              target_id := 0 }) ++
            [{ task := sampleTask 9, position := TaskPosition.POS_HEAD, target_id := 0 }],
          size := 10 }
        (sampleTask 10) TaskPosition.POS_MIDDLE 4 =
      { top := { task := sampleTask 10, position := TaskPosition.POS_MIDDLE, target_id := 4 } ::
          (List.range 9).map (fun i =>
            { task := sampleTask (Int.ofNat i), position := TaskPosition.POS_HEAD,
              target_id := 0 }),
        size := 10 } :=
  (C11_push_on_full_stack_evicts_bottom
    { top := (List.range 9).map (fun i =>
        { task := sampleTask (Int.ofNat i), position := TaskPosition.POS_HEAD,
          target_id := 0 }) ++
        [{ task := sampleTask 9, position := TaskPosition.POS_HEAD, target_id := 0 }],
      size := 10 }
    ((List.range 9).map (fun i =>
        { task := sampleTask (Int.ofNat i), position := TaskPosition.POS_HEAD,
          target_id := 0 }))
    { task := sampleTask 9, position := TaskPosition.POS_HEAD, target_id := 0 }
    (sampleTask 10) TaskPosition.POS_MIDDLE 4 rfl (by decide) rfl).1

/-- C12: in every stack state reached from `stack_create` by a sequence of `stack_push`,
`stack_pop` and `stack_clear` calls, the size field equals the number of linked entries and
is at most 10. -/
theorem C12_stack_size_matches_entries_and_at_most_ten (calls : List StackCall) :
    (stack_calls stack_create calls).size =
        Int.ofNat (stack_calls stack_create calls).top.length ∧
      (stack_calls stack_create calls).size ≤ 10 := by
  have key : ∀ (cs : List StackCall) (s : Stack),
      (s.size = Int.ofNat s.top.length ∧ s.top.length ≤ 10) →
      ((stack_calls s cs).size = Int.ofNat (stack_calls s cs).top.length ∧
        (stack_calls s cs).top.length ≤ 10) := by
    intro cs
    induction cs with
    | nil =>
      intro s h
      exact h
    | cons c cs ih =>
      intro s h
      exact ih (stack_call s c) (stack_call_keeps_size s c h)
  have h := key calls stack_create ⟨rfl, by simp [stack_create]⟩
  refine ⟨h.1, ?_⟩
  rw [h.1]
  simp only [Int.ofNat_eq_coe]
  omega

/-- C13: `stack_pop` right after `stack_push` returns exactly the task, position and anchor
id pushed, on every stack; and when the stack held fewer than 10 entries (size field in
step with the entries), the stack left after the pop is the stack before the push. -/
theorem C13_pop_after_push_returns_pushed_entry (s : Stack) (task : Task)
    (position : TaskPosition) (target_id : Int) :
    (∃ s1, stack_pop (stack_push s task position target_id) =
      some ({ task := task, position := position, target_id := target_id }, s1)) ∧
    (s.size = Int.ofNat s.top.length → s.top.length < 10 →
      stack_pop (stack_push s task position target_id) =
        some ({ task := task, position := position, target_id := target_id }, s)) := by
  constructor
  · exact ⟨_, rfl⟩
  · intro hsize hlen
    have hlt : s.size < 10 := by
      simp only [Int.ofNat_eq_coe] at hsize
      omega
    rw [stack_push_of_not_full s task position target_id hlt]
    simp [stack_pop]

theorem C13_witness :
    stack_pop
        (stack_push
          { top := [{ task := sampleTask 1, position := TaskPosition.POS_HEAD, target_id := 0 }],
            size := 1 }
          (sampleTask 2) TaskPosition.POS_MIDDLE 1) =
      some ({ task := sampleTask 2, position := TaskPosition.POS_MIDDLE, target_id := 1 },
        { top := [{ task := sampleTask 1, position := TaskPosition.POS_HEAD, target_id := 0 }],
          size := 1 }) :=
  (C13_pop_after_push_returns_pushed_entry
    { top := [{ task := sampleTask 1, position := TaskPosition.POS_HEAD, target_id := 0 }],
      size := 1 }
    (sampleTask 2) TaskPosition.POS_MIDDLE 1).2 rfl (by decide)


/-! ## The ordered index (claims C15 and C16) -/

theorem wrap32_of_fits (x : Int) (h1 : -2147483648 ≤ x) (h2 : x ≤ 2147483647) :
    wrap32 x = x := by
  unfold wrap32
  omega

theorem compareTasks_of_fits (t1 t2 : Task) (key : SortKey)
    (h1 : -2147483648 ≤ taskKey key t1 - taskKey key t2)
    (h2 : taskKey key t1 - taskKey key t2 ≤ 2147483647) :
    compareTasks t1 t2 key = taskKey key t1 - taskKey key t2 := by
  cases key <;> exact wrap32_of_fits _ h1 h2

theorem mem_tree_inorderNode_insertNode (node : TreeNode) (task : Task) (key : SortKey)
    (a : Task) :
    a ∈ tree_inorderNode (tree_insertNode node task key) ↔
      a = task ∨ a ∈ tree_inorderNode node := by
  rw [(tree_inorderNode_insertNode_perm node task key).mem_iff, List.mem_cons]

/-- Inserting keeps the search-tree order when the new key's differences fit. -/
theorem tree_insertNode_ordered (node : TreeNode) (task : Task) (key : SortKey)
    (hord : TreeNode.ordered key node)
    (hfit : ∀ x ∈ tree_inorderNode node,
      -2147483648 ≤ taskKey key task - taskKey key x ∧
        taskKey key task - taskKey key x ≤ 2147483647) :
    TreeNode.ordered key (tree_insertNode node task key) := by
  induction node with
  | null => simp [tree_insertNode, TreeNode.ordered, tree_inorderNode]
  | node t l r ihl ihr =>
    obtain ⟨hl, hr, hol, hor⟩ := hord
    have hfl : ∀ x ∈ tree_inorderNode l,
        -2147483648 ≤ taskKey key task - taskKey key x ∧
          taskKey key task - taskKey key x ≤ 2147483647 := by
      intro x hx
      exact hfit x (by simp [tree_inorderNode, hx])
    have hfr : ∀ x ∈ tree_inorderNode r,
        -2147483648 ≤ taskKey key task - taskKey key x ∧
          taskKey key task - taskKey key x ≤ 2147483647 := by
      intro x hx
      exact hfit x (by simp [tree_inorderNode, hx])
    have hft := hfit t (by simp [tree_inorderNode])
    have hcmp := compareTasks_of_fits task t key hft.1 hft.2
    unfold tree_insertNode
    rw [hcmp]
    split
    · rename_i hlt
      refine ⟨?_, hr, ihl hol hfl, hor⟩
      intro a ha
      rcases (mem_tree_inorderNode_insertNode l task key a).mp ha with rfl | ha
      · omega
      · exact hl a ha
    · rename_i hge
      refine ⟨hl, ?_, hol, ihr hor hfr⟩
      intro b hb
      rcases (mem_tree_inorderNode_insertNode r task key b).mp hb with rfl | hb
      · omega
      · exact hr b hb

/-- The in-order traversal of an ordered tree is non-decreasing by the key. -/
theorem tree_inorderNode_sorted (node : TreeNode) (key : SortKey)
    (hord : TreeNode.ordered key node) :
    (tree_inorderNode node).Pairwise (fun a b => taskKey key a ≤ taskKey key b) := by
  induction node with
  | null => simp [tree_inorderNode]
  | node t l r ihl ihr =>
    obtain ⟨hl, hr, hol, hor⟩ := hord
    simp only [tree_inorderNode]
    rw [List.pairwise_append]
    refine ⟨ihl hol, ?_, ?_⟩
    · rw [List.pairwise_cons]
      exact ⟨hr, ihr hor⟩
    · intro a ha b hb
      have h1 := hl a ha
      rcases List.mem_cons.mp hb with rfl | hb
      · omega
      · have h2 := hr b hb
        omega

/-- Among the tasks of one key value, the inserted task comes last in the traversal. -/
theorem tree_insertNode_filter (node : TreeNode) (task : Task) (key : SortKey) (k : Int)
    (hord : TreeNode.ordered key node)
    (hfit : ∀ x ∈ tree_inorderNode node,
      -2147483648 ≤ taskKey key task - taskKey key x ∧
        taskKey key task - taskKey key x ≤ 2147483647) :
    (tree_inorderNode (tree_insertNode node task key)).filter (fun a => taskKey key a = k) =
      (tree_inorderNode node).filter (fun a => taskKey key a = k) ++
        [task].filter (fun a => taskKey key a = k) := by
  induction node with
  | null => simp [tree_insertNode, tree_inorderNode]
  | node t l r ihl ihr =>
    obtain ⟨hl, hr, hol, hor⟩ := hord
    have hfl : ∀ x ∈ tree_inorderNode l,
        -2147483648 ≤ taskKey key task - taskKey key x ∧
          taskKey key task - taskKey key x ≤ 2147483647 := by
      intro x hx
      exact hfit x (by simp [tree_inorderNode, hx])
    have hfr : ∀ x ∈ tree_inorderNode r,
        -2147483648 ≤ taskKey key task - taskKey key x ∧
          taskKey key task - taskKey key x ≤ 2147483647 := by
      intro x hx
      exact hfit x (by simp [tree_inorderNode, hx])
    have hft := hfit t (by simp [tree_inorderNode])
    have hcmp := compareTasks_of_fits task t key hft.1 hft.2
    unfold tree_insertNode
    rw [hcmp]
    split
    · rename_i hlt
      simp only [tree_inorderNode, List.filter_append, ihl hol hfl]
      by_cases hk : taskKey key task = k
      · have hnone : (t :: tree_inorderNode r).filter (fun a => taskKey key a = k) = [] := by
          rw [List.filter_eq_nil_iff]
          intro b hb
          have hb2 : taskKey key t ≤ taskKey key b := by
            rcases List.mem_cons.mp hb with rfl | hb
            · exact le_refl _
            · exact hr b hb
          simp only [decide_eq_true_eq]
          omega
        rw [hnone]
        simp
      · have hnone : [task].filter (fun a => taskKey key a = k) = [] := by
          simp [hk]
        rw [hnone]
        simp
    · simp only [tree_inorderNode, List.filter_append, List.filter_cons, ihr hor hfr]
      split <;> simp

theorem tree_insertAll_cons (tree : Tree) (t : Task) (ts : List Task) :
    tree_insertAll tree (t :: ts) = tree_insertAll (tree_insert tree t) ts := rfl

/-- Filling an ordered tree from a list whose key differences fit: the tree stays ordered
by the same key, its traversal gains exactly the tasks of the list, and the tasks of each
key value are appended in list order. -/
theorem tree_insertAll_spec (tasks : List Task) (tree : Tree)
    (hord : TreeNode.ordered tree.key tree.root)
    (hfit : keyDifferencesFit tree.key (tree_inorder tree ++ tasks)) :
    TreeNode.ordered tree.key (tree_insertAll tree tasks).root ∧
    (tree_insertAll tree tasks).key = tree.key ∧
    List.Perm (tree_inorder (tree_insertAll tree tasks)) (tree_inorder tree ++ tasks) ∧
    ∀ k : Int,
      (tree_inorder (tree_insertAll tree tasks)).filter (fun a => taskKey tree.key a = k) =
        (tree_inorder tree).filter (fun a => taskKey tree.key a = k) ++
          tasks.filter (fun a => taskKey tree.key a = k) := by
  induction tasks generalizing tree with
  | nil =>
    refine ⟨hord, rfl, ?_, ?_⟩
    · simp [tree_insertAll]
    · intro k
      simp [tree_insertAll]
  | cons t ts ih =>
    have hfit1 : ∀ x ∈ tree_inorderNode tree.root,
        -2147483648 ≤ taskKey tree.key t - taskKey tree.key x ∧
          taskKey tree.key t - taskKey tree.key x ≤ 2147483647 := by
      intro x hx
      exact hfit t (by simp) x (by simp [tree_inorder, hx])
    have hord1 : TreeNode.ordered (tree_insert tree t).key (tree_insert tree t).root :=
      tree_insertNode_ordered tree.root t tree.key hord hfit1
    have hmem : ∀ a, a ∈ tree_inorder (tree_insert tree t) ++ ts →
        a ∈ tree_inorder tree ++ t :: ts := by
      intro a ha
      rcases List.mem_append.mp ha with ha | ha
      · rcases (mem_tree_inorderNode_insertNode tree.root t tree.key a).mp ha with rfl | ha
        · simp
        · exact List.mem_append_left _ ha
      · simp [ha]
    have hfit2 : keyDifferencesFit (tree_insert tree t).key
        (tree_inorder (tree_insert tree t) ++ ts) := by
      intro a ha b hb
      exact hfit a (hmem a ha) b (hmem b hb)
    obtain ⟨h1, h2, h3, h4⟩ := ih (tree_insert tree t) hord1 hfit2
    rw [tree_insertAll_cons]
    refine ⟨h1, h2, ?_, ?_⟩
    · refine h3.trans ?_
      have hp := (tree_inorder_insert_perm tree t).append_right ts
      refine hp.trans ?_
      exact (@List.perm_middle Task t (tree_inorder tree) ts).symm
    · intro k
      have h5 := h4 k
      have h6 := tree_insertNode_filter tree.root t tree.key k hord hfit1
      simp only [tree_insert, tree_inorder] at h5 h6 ⊢
      rw [h5, h6]
      simp only [List.filter_cons, List.filter_nil, List.append_assoc]
      split <;> simp


theorem orderedInsert_filter (key : SortKey) (k : Int) (a : Task) (l : List Task) :
    (List.orderedInsert (fun a b => taskKey key a ≤ taskKey key b) a l).filter
        (fun x => taskKey key x = k) =
      [a].filter (fun x => taskKey key x = k) ++ l.filter (fun x => taskKey key x = k) := by
  induction l with
  | nil => simp
  | cons b l ih =>
    simp only [List.orderedInsert]
    split
    · simp only [List.filter_cons, List.filter_nil]
      split <;> simp
    · rename_i hnot
      simp only [List.filter_cons, ih, List.filter_nil]
      by_cases hk : taskKey key a = k
      · have hb : ¬ taskKey key b = k := by omega
        simp [hk, hb]
      · simp [hk]

/-- The stable sort keeps, for every key value, the tasks of that value in input order. -/
theorem stableSortByKey_filter (key : SortKey) (k : Int) (l : List Task) :
    (stableSortByKey key l).filter (fun x => taskKey key x = k) =
      l.filter (fun x => taskKey key x = k) := by
  induction l with
  | nil => simp [stableSortByKey]
  | cons a l ih =>
    unfold stableSortByKey at ih ⊢
    simp only [List.insertionSort, orderedInsert_filter, ih]
    simp only [List.filter_cons, List.filter_nil]
    split <;> simp

theorem stableSortByKey_sorted (key : SortKey) (l : List Task) :
    (stableSortByKey key l).Pairwise (fun a b => taskKey key a ≤ taskKey key b) := by
  haveI : IsTotal Task (fun a b => taskKey key a ≤ taskKey key b) :=
    ⟨fun a b => le_total (taskKey key a) (taskKey key b)⟩
  haveI : IsTrans Task (fun a b => taskKey key a ≤ taskKey key b) :=
    ⟨fun _ _ _ hab hbc => le_trans hab hbc⟩
  exact List.sorted_insertionSort (fun a b => taskKey key a ≤ taskKey key b) l

theorem stableSortByKey_perm (key : SortKey) (l : List Task) :
    List.Perm (stableSortByKey key l) l :=
  List.perm_insertionSort (fun a b => taskKey key a ≤ taskKey key b) l

/-- Two lists that are non-decreasing by the key and hold, for every key value, the same
tasks of that value in the same order, are equal. -/
theorem eq_of_sorted_of_filter_eq (key : SortKey) (l1 l2 : List Task)
    (h1 : l1.Pairwise (fun a b => taskKey key a ≤ taskKey key b))
    (h2 : l2.Pairwise (fun a b => taskKey key a ≤ taskKey key b))
    (hf : ∀ k : Int, l1.filter (fun x => taskKey key x = k) =
      l2.filter (fun x => taskKey key x = k)) : l1 = l2 := by
  induction l1 generalizing l2 with
  | nil =>
    cases l2 with
    | nil => rfl
    | cons b l2 =>
      have h := hf (taskKey key b)
      simp at h
  | cons a l1 ih =>
    cases l2 with
    | nil =>
      have h := hf (taskKey key a)
      simp at h
    | cons b l2 =>
      rw [List.pairwise_cons] at h1 h2
      have hb_mem : b ∈ a :: l1 := by
        have hb : b ∈ (b :: l2).filter (fun x => taskKey key x = taskKey key b) := by simp
        rw [← hf (taskKey key b)] at hb
        exact (List.mem_filter.mp hb).1
      have ha_mem : a ∈ b :: l2 := by
        have ha : a ∈ (a :: l1).filter (fun x => taskKey key x = taskKey key a) := by simp
        rw [hf (taskKey key a)] at ha
        exact (List.mem_filter.mp ha).1
      have hab : taskKey key a ≤ taskKey key b := by
        rcases List.mem_cons.mp hb_mem with rfl | hb
        · exact le_refl _
        · exact h1.1 b hb
      have hba : taskKey key b ≤ taskKey key a := by
        rcases List.mem_cons.mp ha_mem with rfl | ha
        · exact le_refl _
        · exact h2.1 a ha
      have hkey : taskKey key b = taskKey key a := le_antisymm hba hab
      have h0 := hf (taskKey key a)
      simp only [List.filter_cons, hkey, decide_True, if_true, List.cons.injEq] at h0
      obtain ⟨hab_eq, _⟩ := h0
      subst hab_eq
      congr 1
      apply ih l2 h1.2 h2.2
      intro k
      have hk := hf k
      simp only [List.filter_cons] at hk
      split at hk
      · exact (List.cons.inj hk).2
      · exact hk

/-- C15: for every key and every list of tasks whose key differences fit a 32-bit `int`
(as they do for priorities and statuses in 1..3 and for non-negative ids), inserting the
tasks one by one with `tree_insert` into an empty index gives a tree whose in-order
traversal is non-decreasing by the key and is a permutation of the inserted tasks. -/
theorem C15_inorder_sorted_permutation (key : SortKey) (tasks : List Task)
    (hfit : keyDifferencesFit key tasks) :
    (tree_inorder (tree_insertAll (tree_create key) tasks)).Pairwise
        (fun a b => taskKey key a ≤ taskKey key b) ∧
      List.Perm (tree_inorder (tree_insertAll (tree_create key) tasks)) tasks := by
  have hspec := tree_insertAll_spec tasks (tree_create key) trivial
    (by simpa [tree_create, tree_inorder, tree_inorderNode] using hfit)
  obtain ⟨hord, _, hperm, _⟩ := hspec
  refine ⟨tree_inorderNode_sorted _ key hord, ?_⟩
  simpa [tree_create, tree_inorder, tree_inorderNode] using hperm

theorem C15_witness :
    keyDifferencesFit SortKey.KEY_ID
        [sampleTask 5, sampleTask 0, sampleTask 2147483647, sampleTask 5] ∧
      (tree_inorder (tree_insertAll (tree_create SortKey.KEY_ID)
        [sampleTask 5, sampleTask 0, sampleTask 2147483647, sampleTask 5])).Pairwise
        (fun a b => taskKey SortKey.KEY_ID a ≤ taskKey SortKey.KEY_ID b) ∧
      List.Perm (tree_inorder (tree_insertAll (tree_create SortKey.KEY_ID)
        [sampleTask 5, sampleTask 0, sampleTask 2147483647, sampleTask 5]))
        [sampleTask 5, sampleTask 0, sampleTask 2147483647, sampleTask 5] :=
  ⟨by decide,
   C15_inorder_sorted_permutation SortKey.KEY_ID
    [sampleTask 5, sampleTask 0, sampleTask 2147483647, sampleTask 5] (by decide)⟩

/-- Filling an empty index keeps, for every key value, the tasks of that value in the order
in which they were inserted. -/
theorem tree_insertAll_create_filter (key : SortKey) (tasks : List Task)
    (hfit : keyDifferencesFit key tasks) (k : Int) :
    (tree_inorder (tree_insertAll (tree_create key) tasks)).filter
        (fun a => taskKey key a = k) =
      tasks.filter (fun a => taskKey key a = k) := by
  have hspec := tree_insertAll_spec tasks (tree_create key) trivial
    (by simpa [tree_create, tree_inorder, tree_inorderNode] using hfit)
  simpa [tree_create, tree_inorder, tree_inorderNode] using hspec.2.2.2 k

/-- The traversal of an index filled from the empty tree is the stable sort of the list. -/
theorem tree_insertAll_create_eq_stableSort (key : SortKey) (tasks : List Task)
    (hfit : keyDifferencesFit key tasks) :
    tree_inorder (tree_insertAll (tree_create key) tasks) = stableSortByKey key tasks := by
  have hspec := tree_insertAll_spec tasks (tree_create key) trivial
    (by simpa [tree_create, tree_inorder, tree_inorderNode] using hfit)
  apply eq_of_sorted_of_filter_eq key
  · exact tree_inorderNode_sorted _ key hspec.1
  · exact stableSortByKey_sorted key tasks
  · intro k
    rw [tree_insertAll_create_filter key tasks hfit k, stableSortByKey_filter]

/-- C16: for every key and every list of tasks whose key differences fit a 32-bit `int`,
the in-order traversal of the index built by inserting the tasks in order is the stable sort
of the list by the key; in particular, for every key value the tasks of that value appear in
the traversal in the order in which they were inserted. -/
theorem C16_inorder_is_stable_sort (key : SortKey) (tasks : List Task)
    (hfit : keyDifferencesFit key tasks) :
    tree_inorder (tree_insertAll (tree_create key) tasks) = stableSortByKey key tasks ∧
    ∀ k : Int,
      (tree_inorder (tree_insertAll (tree_create key) tasks)).filter
          (fun a => taskKey key a = k) =
        tasks.filter (fun a => taskKey key a = k) :=
  ⟨tree_insertAll_create_eq_stableSort key tasks hfit,
   fun k => tree_insertAll_create_filter key tasks hfit k⟩

theorem C16_witness :
    tree_inorder (tree_insertAll (tree_create SortKey.KEY_PRIORITY)
        [{ sampleTask 1 with priority := 2 }, { sampleTask 2 with priority := 1 },
         { sampleTask 3 with priority := 2 }, { sampleTask 4 with priority := 1 }]) =
      [{ sampleTask 2 with priority := 1 }, { sampleTask 4 with priority := 1 },
       { sampleTask 1 with priority := 2 }, { sampleTask 3 with priority := 2 }] :=
  (C16_inorder_is_stable_sort SortKey.KEY_PRIORITY
    [{ sampleTask 1 with priority := 2 }, { sampleTask 2 with priority := 1 },
     { sampleTask 3 with priority := 2 }, { sampleTask 4 with priority := 1 }]
    (by decide)).1.trans (by decide)


/-! ## Updating a task (claims C17 and C18) -/

theorem list_updateTask_search_some (target_id priority status : Int) (pre : List Task)
    (a : Task) (post : List Task) (hpre : ∀ c ∈ pre, c.id ≠ target_id)
    (ha : a.id = target_id) :
    list_updateTask_search target_id priority status (pre ++ a :: post) =
      some (pre ++ a.setPriorityStatus priority status :: post) := by
  induction pre with
  | nil => simp [list_updateTask_search, ha]
  | cons c rest ih =>
    have hc : c.id ≠ target_id := hpre c (List.mem_cons_self _ _)
    have hr : ∀ d ∈ rest, d.id ≠ target_id := fun d hd => hpre d (List.mem_cons_of_mem _ hd)
    simp [list_updateTask_search, hc, ih hr]

/-- Every update that finds its task reaches the two assignments through the freed tree
pointers, so it has no defined result. -/
theorem list_updateTask_of_found (s : State) (target_id priority status : Int)
    (hfound : ∃ c ∈ s.head_list, c.id = target_id) :
    list_updateTask s target_id priority status = none := by
  obtain ⟨pre, a, post, hl, hpre, ha⟩ := exists_first_with_id s.head_list target_id hfound
  unfold list_updateTask
  rw [hl, list_updateTask_search_some target_id priority status pre a post hpre ha]
  rfl

/-- C17, the code at the failing input: on the sequence with ids 1, 2 (counter 2), an
update of id 2 to priority 3 and status 2 has no defined result: after the two field
assignments the call frees both `Tree` structs with `tree_free` and then assigns through
the freed pointers. -/
theorem C17_update_reaches_use_after_free :
    list_updateTask
        { sampleState [sampleTask 1, sampleTask 2] [] with list_counter := 2 } 2 3 2 = none ∧
    tree_assignCreated (tree_free (tree_create SortKey.KEY_PRIORITY)) SortKey.KEY_PRIORITY
      = none := by
  decide

/-- C18, the code at the failing input: from the state reached by `addHead` of task 1
and `addHead` of task 2, an update of id 1 to priority 2 and status 3 does not produce
rebuilt priority and status indexes: both assignments `*priority_tree = ...` and
`*status_tree = ...` go through pointers freed just before, so the call has no defined
result. -/
theorem C18_update_rebuild_writes_freed_trees :
    (runCommands initialState
        [Command.addHead (sampleTask 1), Command.addHead (sampleTask 2)]).map
      (fun s =>
        (tree_assignCreated (tree_free s.priority_tree) SortKey.KEY_PRIORITY,
         tree_assignCreated (tree_free s.status_tree) SortKey.KEY_STATUS,
         list_updateTask s 1 2 3))
      = some (none, none, none) := by
  decide

/-! ## The counter under the menu commands (claim C14) -/

/-- C14, the code at the failing input: after `addHead` of one task and `removeEnd`, the
counter is 0 while the list that `main` still holds through its `head_list` pointer is the
one node that was there before (the node is freed, but only the local `head` of
`list_removeFromEnd` is set to `NULL`); the task is also on the undo stack. -/
theorem C14_counter_zero_while_menu_still_holds_node :
    (runCommands initialState [Command.addHead (sampleTask 1), Command.removeEnd]).map
      (fun s => (s.head_list, s.list_counter, s.undo_stack.top.map StackNode.task))
      = some ([sampleTask 1], 0, [sampleTask 1]) := by
  decide

/-! ## Loading a snapshot (claims C19 and C20) -/

/-- The load loop, spelled out: the first `n` records (as far as there are any) are linked
in front of the list, last read first; the counter grows by their number; one error is
reported for each of the `n` rounds that finds no record. -/
theorem file_loadTasks_loop_spec (n : Nat) (records : List Task) (s : State) (errors : Nat) :
    (file_loadTasks_loop n records s errors).1.head_list =
        (records.take n).reverse ++ s.head_list ∧
    (file_loadTasks_loop n records s errors).1.list_counter =
        s.list_counter + Int.ofNat (records.take n).length ∧
    (file_loadTasks_loop n records s errors).2 = errors + (n - records.length) := by
  induction n generalizing records s errors with
  | zero => simp [file_loadTasks_loop]
  | succ n ih =>
    cases records with
    | nil =>
      obtain ⟨h1, h2, h3⟩ := ih [] s (errors + 1)
      simp only [List.take_nil] at h1 h2
      simp only [file_loadTasks_loop, List.take_nil]
      refine ⟨h1, h2, ?_⟩
      rw [h3]
      simp only [List.length_nil]
      omega
    | cons r rs =>
      obtain ⟨h1, h2, h3⟩ := ih rs
        (insertIntoTrees
          { s with head_list := r :: s.head_list,
                   list_counter := listCounter_increment s.list_counter } r) errors
      simp only [file_loadTasks_loop]
      refine ⟨?_, ?_, ?_⟩
      · rw [h1]
        simp [insertIntoTrees]
      · rw [h2]
        simp only [insertIntoTrees, listCounter_increment, List.take_succ_cons,
          List.length_cons, Int.ofNat_eq_coe, Nat.cast_add, Nat.cast_one]
        omega
      · rw [h3]
        simp only [List.length_cons]
        omega

theorem file_loadTasks_of_count (s : State) (f : TaskFile) (n : Int)
    (hcount : f.count = some n) :
    file_loadTasks (some f) s = file_loadTasks_loop n.toNat f.records (list_freeAll s) 0 := by
  simp [file_loadTasks, hcount]

/-- C19, the code at the failing input: with one task (id 1) in the sequence and in the
three indexes, loading a file with count 1 and one record (id 2) gives the sequence of the
loaded task alone and counter 1, while each index holds the nodes of both tasks (task 1
itself has moved to the undo stack). -/
theorem C19_old_nodes_survive_load :
    ((file_loadTasks (some { count := some 1, records := [sampleTask 2] })
        (list_addToHead initialState (sampleTask 1))).1.head_list,
     (file_loadTasks (some { count := some 1, records := [sampleTask 2] })
        (list_addToHead initialState (sampleTask 1))).1.list_counter,
     tree_inorder (file_loadTasks (some { count := some 1, records := [sampleTask 2] })
        (list_addToHead initialState (sampleTask 1))).1.id_tree,
     tree_inorder (file_loadTasks (some { count := some 1, records := [sampleTask 2] })
        (list_addToHead initialState (sampleTask 1))).1.priority_tree,
     tree_inorder (file_loadTasks (some { count := some 1, records := [sampleTask 2] })
        (list_addToHead initialState (sampleTask 1))).1.status_tree,
     (file_loadTasks (some { count := some 1, records := [sampleTask 2] })
        (list_addToHead initialState (sampleTask 1))).1.undo_stack.top.map StackNode.task)
      = ([sampleTask 2], 1, [sampleTask 1, sampleTask 2], [sampleTask 1, sampleTask 2],
         [sampleTask 1, sampleTask 2], [sampleTask 1]) := by
  decide

/-- C20: for every prior state and every file whose header count `n` is larger than the
number `k` of complete records it holds, the load returns (it does not abort), the primary
sequence consists of exactly the `k` records read (last read first), `n - k` read errors are
reported, and the counter is `k`. -/
theorem C20_short_file_loads_records_and_reports_missing (s : State) (f : TaskFile) (n : Int)
    (hcount : f.count = some n) (hshort : Int.ofNat f.records.length < n) :
    (file_loadTasks (some f) s).1.head_list = f.records.reverse ∧
    (file_loadTasks (some f) s).1.head_list.length = f.records.length ∧
    Int.ofNat (file_loadTasks (some f) s).2 = n - Int.ofNat f.records.length ∧
    (file_loadTasks (some f) s).1.list_counter = Int.ofNat f.records.length := by
  rw [file_loadTasks_of_count s f n hcount]
  obtain ⟨h1, h2, h3⟩ :=
    file_loadTasks_loop_spec n.toNat f.records (list_freeAll s) 0
  have hlen : f.records.length ≤ n.toNat := by
    simp only [Int.ofNat_eq_coe] at hshort
    omega
  have htake : f.records.take n.toNat = f.records := List.take_of_length_le hlen
  have hhead : (file_loadTasks_loop n.toNat f.records (list_freeAll s) 0).1.head_list =
      f.records.reverse := by
    rw [h1, htake]
    simp [list_freeAll]
  refine ⟨hhead, ?_, ?_, ?_⟩
  · rw [hhead]
    simp
  · rw [h3]
    simp only [Int.ofNat_eq_coe] at hshort ⊢
    omega
  · rw [h2, htake]
    simp [list_freeAll, listCounter_reset]

theorem C20_witness :
    (file_loadTasks (some { count := some 3, records := [sampleTask 1, sampleTask 2] })
        initialState).1.head_list = [sampleTask 1, sampleTask 2].reverse ∧
    (file_loadTasks (some { count := some 3, records := [sampleTask 1, sampleTask 2] })
        initialState).1.head_list.length = 2 ∧
    Int.ofNat (file_loadTasks (some { count := some 3, records := [sampleTask 1, sampleTask 2] })
        initialState).2 = 3 - 2 ∧
    (file_loadTasks (some { count := some 3, records := [sampleTask 1, sampleTask 2] })
        initialState).1.list_counter = 2 :=
  C20_short_file_loads_records_and_reports_missing initialState
    { count := some 3, records := [sampleTask 1, sampleTask 2] } 3 rfl (by decide)


/-! ## Load failures and saving (claims C21 and C22) -/

/-- C21: when the snapshot file cannot be opened, or is opened but its count header cannot
be read, `file_loadTasks` returns the state it was given: the primary sequence, the counter,
the undo stack and the three indexes are as they were (and no read error is counted). -/
theorem C21_load_failure_leaves_state (s : State) (disk : Option TaskFile)
    (hfail : disk = none ∨ ∃ f, disk = some f ∧ f.count = none) :
    file_loadTasks disk s = (s, 0) := by
  rcases hfail with h | ⟨f, h, hc⟩
  · rw [h]
    rfl
  · rw [h]
    simp [file_loadTasks, hc]

theorem C21_witness :
    file_loadTasks (some { count := none, records := [sampleTask 5] })
        (sampleState [sampleTask 1, sampleTask 2]
          [{ task := sampleTask 3, position := TaskPosition.POS_END, target_id := 0 }]) =
      (sampleState [sampleTask 1, sampleTask 2]
          [{ task := sampleTask 3, position := TaskPosition.POS_END, target_id := 0 }], 0) :=
  C21_load_failure_leaves_state
    (sampleState [sampleTask 1, sampleTask 2]
      [{ task := sampleTask 3, position := TaskPosition.POS_END, target_id := 0 }])
    (some { count := none, records := [sampleTask 5] })
    (Or.inr ⟨{ count := none, records := [sampleTask 5] }, rfl, rfl⟩)

theorem file_saveTasks_count_eq (l : List Task) (count : Int) :
    file_saveTasks_count l count = count + Int.ofNat l.length := by
  induction l generalizing count with
  | nil => simp [file_saveTasks_count]
  | cons c rest ih =>
    simp only [file_saveTasks_count, ih, List.length_cons, Int.ofNat_eq_coe, Nat.cast_add,
      Nat.cast_one]
    omega

theorem file_saveTasks_write_eq (l written : List Task) :
    file_saveTasks_write l written = written ++ l := by
  induction l generalizing written with
  | nil => simp [file_saveTasks_write]
  | cons c rest ih => simp [file_saveTasks_write, ih]

/-- What a successful `file_saveTasks` leaves on disk. -/
theorem file_saveTasks_of_open (disk : Option TaskFile) (head : List Task) :
    file_saveTasks true disk head =
      some { count := some (Int.ofNat head.length), records := head } := by
  simp [file_saveTasks, file_saveTasks_count_eq, file_saveTasks_write_eq]

/-- C22: when the file can be opened, saving a primary sequence of `n` tasks writes the
count `n` found by walking the sequence, followed by exactly `n` records, the `i`-th record
being the `i`-th task of the sequence in its current order, whatever the file held before;
the state that `main` goes on with (sequence, counter, undo stack, indexes) is the one from
before the call. -/
theorem C22_save_writes_count_and_records_in_order (s : State) (disk : Option TaskFile) :
    (main_saveTasks true disk s).2 =
      some { count := some (Int.ofNat s.head_list.length), records := s.head_list } ∧
    (∀ f, (main_saveTasks true disk s).2 = some f →
      f.count = some (Int.ofNat s.head_list.length) ∧
      f.records.length = s.head_list.length ∧
      ∀ i : Nat, f.records[i]? = s.head_list[i]?) ∧
    (main_saveTasks true disk s).1 = s := by
  have hfile := file_saveTasks_of_open disk s.head_list
  refine ⟨hfile, ?_, rfl⟩
  intro f hf
  have hf2 : file_saveTasks true disk s.head_list = some f := hf
  rw [hfile] at hf2
  simp only [Option.some.injEq] at hf2
  subst hf2
  exact ⟨rfl, rfl, fun _ => rfl⟩

theorem C22_witness :
    (main_saveTasks true (some { count := some 7, records := [sampleTask 9] })
        (sampleState [sampleTask 1, sampleTask 2, sampleTask 3] [])).2 =
      some { count := some 3, records := [sampleTask 1, sampleTask 2, sampleTask 3] } ∧
    (∀ i : Nat,
      ([sampleTask 1, sampleTask 2, sampleTask 3] : List Task)[i]? =
        (sampleState [sampleTask 1, sampleTask 2, sampleTask 3] []).head_list[i]?) :=
  ⟨(C22_save_writes_count_and_records_in_order
      (sampleState [sampleTask 1, sampleTask 2, sampleTask 3] [])
      (some { count := some 7, records := [sampleTask 9] })).1,
   ((C22_save_writes_count_and_records_in_order
      (sampleState [sampleTask 1, sampleTask 2, sampleTask 3] [])
      (some { count := some 7, records := [sampleTask 9] })).2.1
      { count := some 3, records := [sampleTask 1, sampleTask 2, sampleTask 3] }
      (by decide)).2.2⟩

/-! ## Adding after an anchor and at the end (claims C23 to C25) -/

theorem insertIntoTrees_list_counter (s : State) (task : Task) :
    (insertIntoTrees s task).list_counter = s.list_counter := rfl

theorem insertIntoTrees_undo_stack (s : State) (task : Task) :
    (insertIntoTrees s task).undo_stack = s.undo_stack := rfl

/-- C23: when the primary sequence holds a task with id `anchorId`, `list_addToMiddle`
links the new task immediately after the first task with that id: the sequence splits as
`pre ++ a :: post` with `a` the first task carrying the id, the new sequence is
`pre ++ a :: t :: post`, and the counter has grown by exactly one. -/
theorem C23_addAfter_links_after_first_anchor (s : State) (anchorId : Int) (t : Task)
    (hanchor : ∃ c ∈ s.head_list, c.id = anchorId) :
    ∃ pre a post,
      s.head_list = pre ++ a :: post ∧ (∀ c ∈ pre, c.id ≠ anchorId) ∧ a.id = anchorId ∧
      (list_addToMiddle s anchorId t).head_list = pre ++ a :: t :: post ∧
      (list_addToMiddle s anchorId t).list_counter = s.list_counter + 1 := by
  obtain ⟨pre, a, post, hl, hpre, ha⟩ := exists_first_with_id s.head_list anchorId hanchor
  have hsome := list_linkAfterID_some anchorId t pre a post hpre ha
  rw [← hl] at hsome
  refine ⟨pre, a, post, hl, hpre, ha, ?_, ?_⟩
  · simp [list_addToMiddle, hsome, insertIntoTrees_head_list]
  · simp [list_addToMiddle, hsome, insertIntoTrees_list_counter, listCounter_increment]

theorem C23_witness :
    ∃ pre a post,
      (sampleState [sampleTask 1, sampleTask 2, sampleTask 3] []).head_list = pre ++ a :: post ∧
      (∀ c ∈ pre, c.id ≠ 2) ∧ a.id = 2 ∧
      (list_addToMiddle (sampleState [sampleTask 1, sampleTask 2, sampleTask 3] []) 2
        (sampleTask 9)).head_list = pre ++ a :: sampleTask 9 :: post ∧
      (list_addToMiddle (sampleState [sampleTask 1, sampleTask 2, sampleTask 3] []) 2
        (sampleTask 9)).list_counter = 0 + 1 :=
  C23_addAfter_links_after_first_anchor
    (sampleState [sampleTask 1, sampleTask 2, sampleTask 3] []) 2 (sampleTask 9)
    ⟨sampleTask 2, by decide, rfl⟩

theorem list_searchID_none (target_id : Int) (l : List Task)
    (h : ∀ c ∈ l, c.id ≠ target_id) : list_searchID target_id l = none := by
  induction l with
  | nil => rfl
  | cons c rest ih =>
    have hc : c.id ≠ target_id := h c (List.mem_cons_self _ _)
    have hr : ∀ d ∈ rest, d.id ≠ target_id := fun d hd => h d (List.mem_cons_of_mem _ hd)
    simp [list_searchID, hc, ih hr]

/-- C24: when no task of the primary sequence has id `anchorId` (the empty sequence
included), `list_addToMiddle` changes nothing, whatever task would have been typed in: the
sequence, the counter, the undo stack and the three indexes are as before; and `fillTask` is
not reached, so the pending task input is left unread. -/
theorem C24_addAfter_absent_anchor_changes_nothing (s : State) (anchorId : Int)
    (habs : ∀ c ∈ s.head_list, c.id ≠ anchorId) :
    (∀ t : Task, list_addToMiddle s anchorId t = s) ∧
    (∀ pending : List Task, list_addToMiddle_reading s anchorId pending = some (s, pending)) := by
  constructor
  · intro t
    simp [list_addToMiddle, list_linkAfterID_none anchorId t s.head_list habs]
  · intro pending
    simp [list_addToMiddle_reading, list_searchID_none anchorId s.head_list habs]

theorem C24_witness :
    (∀ t : Task, list_addToMiddle (sampleState [sampleTask 1, sampleTask 2] []) 7 t =
      sampleState [sampleTask 1, sampleTask 2] []) ∧
    (∀ pending : List Task,
      list_addToMiddle_reading (sampleState [sampleTask 1, sampleTask 2] []) 7 pending =
        some (sampleState [sampleTask 1, sampleTask 2] [], pending)) :=
  C24_addAfter_absent_anchor_changes_nothing (sampleState [sampleTask 1, sampleTask 2] []) 7
    (by decide)

/-- C25, counterexample: on the empty primary sequence `list_addToEnd` adds nothing: the
state after the call is the initial state, with an empty sequence, counter 0 and empty
indexes. -/
theorem C25_counterexample_addEnd_on_empty_sequence :
    list_addToEnd initialState (sampleTask 1) = initialState ∧
      (list_addToEnd initialState (sampleTask 1)).head_list = [] := by
  decide

/-- C25, amended: on every non-empty primary sequence `xs`, `list_addToEnd` with new task
`t` gives the sequence `xs` followed by `t`, the counter grown by one and `t` inserted into
the three indexes; on the empty sequence the call changes nothing. -/
theorem C25_addEnd_appends_on_non_empty_sequence (s : State) (t : Task) :
    (s.head_list ≠ [] →
      (list_addToEnd s t).head_list = s.head_list ++ [t] ∧
      (list_addToEnd s t).list_counter = s.list_counter + 1 ∧
      (list_addToEnd s t).id_tree = tree_insert s.id_tree t ∧
      (list_addToEnd s t).priority_tree = tree_insert s.priority_tree t ∧
      (list_addToEnd s t).status_tree = tree_insert s.status_tree t) ∧
    (s.head_list = [] → list_addToEnd s t = s) := by
  constructor
  · intro hne
    cases hl : s.head_list with
    | nil => exact absurd hl hne
    | cons h rest =>
      simp [list_addToEnd, hl, insertIntoTrees, list_linkAtEnd_eq, listCounter_increment]
  · intro hl
    simp [list_addToEnd, hl]

theorem C25_witness :
    ((list_addToEnd (sampleState [sampleTask 1, sampleTask 2] []) (sampleTask 3)).head_list =
        [sampleTask 1, sampleTask 2] ++ [sampleTask 3] ∧
      (list_addToEnd (sampleState [sampleTask 1, sampleTask 2] []) (sampleTask 3)).list_counter =
        0 + 1) ∧
    list_addToEnd initialState (sampleTask 3) = initialState :=
  ⟨⟨((C25_addEnd_appends_on_non_empty_sequence (sampleState [sampleTask 1, sampleTask 2] [])
      (sampleTask 3)).1 (by decide)).1,
    ((C25_addEnd_appends_on_non_empty_sequence (sampleState [sampleTask 1, sampleTask 2] [])
      (sampleTask 3)).1 (by decide)).2.1⟩,
   (C25_addEnd_appends_on_non_empty_sequence initialState (sampleTask 3)).2 rfl⟩

/-! ## Removals (claims C26 to C29) -/

theorem list_removeByID_search_none (target_id : Int) (current : Task) (rest : List Task)
    (prev_id : Int) (h : ∀ c ∈ rest, c.id ≠ target_id) :
    list_removeByID_search target_id current rest prev_id = none := by
  induction rest generalizing current prev_id with
  | nil => rfl
  | cons n rest ih =>
    have hn : n.id ≠ target_id := h n (List.mem_cons_self _ _)
    have hr : ∀ d ∈ rest, d.id ≠ target_id := fun d hd => h d (List.mem_cons_of_mem _ hd)
    simp [list_removeByID_search, hn, ih n current.id hr]

/-- The search of `list_removeByID` finds the first node after `current` with the id and
unlinks it; the anchor it reports is some id `p`. -/
theorem list_removeByID_search_some (target_id : Int) (current : Task) (pre : List Task)
    (a : Task) (post : List Task) (prev_id : Int)
    (hpre : ∀ c ∈ pre, c.id ≠ target_id) (ha : a.id = target_id) :
    ∃ p, list_removeByID_search target_id current (pre ++ a :: post) prev_id =
      some (p, a, current :: (pre ++ post)) := by
  induction pre generalizing current prev_id with
  | nil => exact ⟨prev_id, by simp [list_removeByID_search, ha]⟩
  | cons c rest ih =>
    have hc : c.id ≠ target_id := hpre c (List.mem_cons_self _ _)
    have hr : ∀ d ∈ rest, d.id ≠ target_id := fun d hd => hpre d (List.mem_cons_of_mem _ hd)
    obtain ⟨p, hp⟩ := ih c current.id hr
    exact ⟨p, by simp [list_removeByID_search, hc, hp]⟩

/-- A successful `list_removeByID`, spelled out at the split of the sequence at the first
task with the id. -/
theorem list_removeByID_of_split (s : State) (target_id : Int) (pre : List Task) (a : Task)
    (post : List Task) (hl : s.head_list = pre ++ a :: post)
    (hpre : ∀ c ∈ pre, c.id ≠ target_id) (ha : a.id = target_id) :
    ∃ position anchor,
      (pre = [] → position = TaskPosition.POS_HEAD) ∧
      (pre ≠ [] → position = TaskPosition.POS_MIDDLE) ∧
      list_removeByID s target_id =
        { s with undo_stack := stack_push s.undo_stack a position anchor,
                 head_list := pre ++ post,
                 list_counter := listCounter_decrement s.list_counter } := by
  cases pre with
  | nil =>
    refine ⟨TaskPosition.POS_HEAD, 0, fun _ => rfl, fun h => absurd rfl h, ?_⟩
    simp only [List.nil_append] at hl
    simp [list_removeByID, hl, ha]
  | cons c rest =>
    have hc : c.id ≠ target_id := hpre c (List.mem_cons_self _ _)
    have hr : ∀ d ∈ rest, d.id ≠ target_id := fun d hd => hpre d (List.mem_cons_of_mem _ hd)
    obtain ⟨p, hp⟩ := list_removeByID_search_some target_id c rest a post c.id hr ha
    refine ⟨TaskPosition.POS_MIDDLE, p, fun h => by simp at h, fun _ => rfl, ?_⟩
    simp only [List.cons_append] at hl
    simp [list_removeByID, hl, hc, hp]

theorem stack_push_top (st : Stack) (task : Task) (position : TaskPosition) (target_id : Int) :
    ∃ below, (stack_push st task position target_id).top =
      { task := task, position := position, target_id := target_id } :: below :=
  ⟨_, rfl⟩

theorem listCounter_decrement_of_pos (c : Int) (h : 0 < c) : listCounter_decrement c = c - 1 := by
  simp [listCounter_decrement, h]

/-- C26: when the primary sequence holds a task with the given id and the counter is in
step with the sequence, `list_removeByID` removes exactly the first task with that id (the
sequence `pre ++ a :: post` becomes `pre ++ post`), decreases the counter by one, and leaves
the removed task as the top entry of the undo stack, with position Head when it was the
first element of the sequence and Middle otherwise. -/
theorem C26_removeById_removes_first_match (s : State) (target_id : Int)
    (hfound : ∃ c ∈ s.head_list, c.id = target_id)
    (hcounter : s.list_counter = Int.ofNat s.head_list.length) :
    ∃ pre a post e below,
      s.head_list = pre ++ a :: post ∧ (∀ c ∈ pre, c.id ≠ target_id) ∧ a.id = target_id ∧
      (list_removeByID s target_id).head_list = pre ++ post ∧
      (list_removeByID s target_id).list_counter = s.list_counter - 1 ∧
      (list_removeByID s target_id).undo_stack.top = e :: below ∧
      e.task = a ∧
      stack_peek (list_removeByID s target_id).undo_stack = some a ∧
      (pre = [] → e.position = TaskPosition.POS_HEAD) ∧
      (pre ≠ [] → e.position = TaskPosition.POS_MIDDLE) := by
  obtain ⟨pre, a, post, hl, hpre, ha⟩ := exists_first_with_id s.head_list target_id hfound
  obtain ⟨position, anchor, hhead, hmid, hrem⟩ :=
    list_removeByID_of_split s target_id pre a post hl hpre ha
  obtain ⟨below, htop⟩ := stack_push_top s.undo_stack a position anchor
  have hpos : 0 < s.list_counter := by
    rw [hcounter, hl]
    simp only [List.length_append, List.length_cons, Int.ofNat_eq_coe, Nat.cast_add,
      Nat.cast_one]
    omega
  refine ⟨pre, a, post, { task := a, position := position, target_id := anchor }, below,
    hl, hpre, ha, ?_, ?_, ?_, rfl, ?_, hhead, hmid⟩
  · rw [hrem]
  · rw [hrem]
    exact listCounter_decrement_of_pos _ hpos
  · rw [hrem]
    exact htop
  · rw [hrem]
    simp [stack_peek, htop]

theorem C26_witness :
    ∃ pre a post e below,
      ({ sampleState [sampleTask 1, sampleTask 2, sampleTask 3] [] with
          list_counter := 3 } : State).head_list = pre ++ a :: post ∧
      (∀ c ∈ pre, c.id ≠ 2) ∧ a.id = 2 ∧
      (list_removeByID
        { sampleState [sampleTask 1, sampleTask 2, sampleTask 3] [] with list_counter := 3 }
        2).head_list = pre ++ post ∧
      (list_removeByID
        { sampleState [sampleTask 1, sampleTask 2, sampleTask 3] [] with list_counter := 3 }
        2).list_counter = 3 - 1 ∧
      (list_removeByID
        { sampleState [sampleTask 1, sampleTask 2, sampleTask 3] [] with list_counter := 3 }
        2).undo_stack.top = e :: below ∧
      e.task = a ∧
      stack_peek (list_removeByID
        { sampleState [sampleTask 1, sampleTask 2, sampleTask 3] [] with list_counter := 3 }
        2).undo_stack = some a ∧
      (pre = [] → e.position = TaskPosition.POS_HEAD) ∧
      (pre ≠ [] → e.position = TaskPosition.POS_MIDDLE) :=
  C26_removeById_removes_first_match
    { sampleState [sampleTask 1, sampleTask 2, sampleTask 3] [] with list_counter := 3 }
    2 ⟨sampleTask 2, by decide, rfl⟩ (by decide)

/-- C27: on a non-empty primary sequence in which no task has the given id,
`list_removeByID` returns the state it was given: the sequence, the counter and the undo
stack (entries and size) are unchanged. -/
theorem C27_removeById_absent_id_changes_nothing (s : State) (target_id : Int)
    (_hne : s.head_list ≠ [])
    (habs : ∀ c ∈ s.head_list, c.id ≠ target_id) :
    list_removeByID s target_id = s := by
  cases hl : s.head_list with
  | nil => simp [list_removeByID, hl]
  | cons h rest =>
    rw [hl] at habs
    have hh : h.id ≠ target_id := habs h (List.mem_cons_self _ _)
    have hr : ∀ d ∈ rest, d.id ≠ target_id := fun d hd => habs d (List.mem_cons_of_mem _ hd)
    simp [list_removeByID, hl, hh, list_removeByID_search_none target_id h rest h.id hr]

theorem C27_witness :
    list_removeByID
        (sampleState [sampleTask 1, sampleTask 2]
          [{ task := sampleTask 3, position := TaskPosition.POS_END, target_id := 0 }]) 7 =
      sampleState [sampleTask 1, sampleTask 2]
          [{ task := sampleTask 3, position := TaskPosition.POS_END, target_id := 0 }] :=
  C27_removeById_absent_id_changes_nothing
    (sampleState [sampleTask 1, sampleTask 2]
      [{ task := sampleTask 3, position := TaskPosition.POS_END, target_id := 0 }]) 7
    (by decide) (by decide)


theorem list_unlinkLast_of_split (current n : Task) (rest init : List Task) (last : Task)
    (h : current :: n :: rest = init ++ [last]) :
    list_unlinkLast current n rest = (last, init) := by
  induction rest generalizing current n init with
  | nil =>
    cases init with
    | nil => simp at h
    | cons x init1 =>
      cases init1 with
      | nil =>
        simp only [List.cons_append, List.nil_append, List.cons.injEq, and_true] at h
        obtain ⟨h1, h2⟩ := h
        subst h1
        subst h2
        rfl
      | cons y init2 =>
        have hlen := congrArg List.length h
        simp only [List.length_cons, List.length_append, List.length_nil] at hlen
        omega
  | cons m rest ih =>
    cases init with
    | nil =>
      have hlen := congrArg List.length h
      simp at hlen
    | cons x init1 =>
      simp only [List.cons_append, List.cons.injEq] at h
      obtain ⟨h1, h2⟩ := h
      subst h1
      simp only [list_unlinkLast, ih n m init1 h2]

/-- C28: with the counter in step with the sequence, `list_removeFromHead` on a sequence
`h :: rest` leaves `rest`, pushes `h` on the undo stack with position Head and decreases the
counter by one; `list_removeFromEnd` on a sequence `init ++ [last]` of at least two tasks
leaves `init`, pushes `last` with position End and decreases the counter by one. -/
theorem C28_removeHead_and_removeEnd (s : State)
    (hcounter : s.list_counter = Int.ofNat s.head_list.length) :
    (∀ h rest, s.head_list = h :: rest →
      list_removeFromHead s =
        { s with undo_stack := stack_push s.undo_stack h TaskPosition.POS_HEAD 0,
                 head_list := rest,
                 list_counter := s.list_counter - 1 }) ∧
    (∀ init last, s.head_list = init ++ [last] → init ≠ [] →
      list_removeFromEnd s =
        { s with undo_stack := stack_push s.undo_stack last TaskPosition.POS_END 0,
                 head_list := init,
                 list_counter := s.list_counter - 1 }) := by
  constructor
  · intro h rest hl
    have hpos : 0 < s.list_counter := by
      rw [hcounter, hl]
      simp only [List.length_cons, Int.ofNat_eq_coe, Nat.cast_add, Nat.cast_one]
      omega
    simp [list_removeFromHead, hl, listCounter_decrement_of_pos _ hpos]
  · intro init last hl hne
    have hpos : 0 < s.list_counter := by
      rw [hcounter, hl]
      simp only [List.length_append, List.length_cons, List.length_nil, Int.ofNat_eq_coe,
        Nat.cast_add, Nat.cast_one]
      omega
    cases hs : s.head_list with
    | nil =>
      rw [hs] at hl
      simp at hl
    | cons a tl =>
      cases tl with
      | nil =>
        rw [hs] at hl
        cases init with
        | nil => exact absurd rfl hne
        | cons x init1 =>
          have hlen := congrArg List.length hl
          simp only [List.length_cons, List.length_append, List.length_nil] at hlen
          omega
      | cons b tl2 =>
        rw [hs] at hl
        have hu := list_unlinkLast_of_split a b tl2 init last hl
        simp [list_removeFromEnd, hs, hu, listCounter_decrement_of_pos _ hpos]

theorem C28_witness :
    list_removeFromHead
        { sampleState [sampleTask 1, sampleTask 2, sampleTask 3] [] with list_counter := 3 } =
      { sampleState [sampleTask 1, sampleTask 2, sampleTask 3] [] with
        undo_stack := stack_push stack_create (sampleTask 1) TaskPosition.POS_HEAD 0,
        head_list := [sampleTask 2, sampleTask 3],
        list_counter := 3 - 1 } ∧
    list_removeFromEnd
        { sampleState [sampleTask 1, sampleTask 2, sampleTask 3] [] with list_counter := 3 } =
      { sampleState [sampleTask 1, sampleTask 2, sampleTask 3] [] with
        undo_stack := stack_push stack_create (sampleTask 3) TaskPosition.POS_END 0,
        head_list := [sampleTask 1, sampleTask 2],
        list_counter := 3 - 1 } :=
  ⟨(C28_removeHead_and_removeEnd
      { sampleState [sampleTask 1, sampleTask 2, sampleTask 3] [] with list_counter := 3 }
      (by decide)).1 (sampleTask 1) [sampleTask 2, sampleTask 3] rfl,
   (C28_removeHead_and_removeEnd
      { sampleState [sampleTask 1, sampleTask 2, sampleTask 3] [] with list_counter := 3 }
      (by decide)).2 [sampleTask 1, sampleTask 2] (sampleTask 3) rfl (by decide)⟩

/-- C29: on an empty primary sequence `list_removeFromHead`, `list_removeFromEnd` and
`list_removeByID` each return the state they were given (sequence still empty, counter and
undo stack untouched); and `listCounter_decrement` never takes a counter that is not
negative below 0. -/
theorem C29_removals_on_empty_sequence_change_nothing (s : State) (hempty : s.head_list = []) :
    list_removeFromHead s = s ∧ list_removeFromEnd s = s ∧
    (∀ target_id : Int, list_removeByID s target_id = s) ∧
    (∀ c : Int, 0 ≤ c → 0 ≤ listCounter_decrement c) := by
  refine ⟨?_, ?_, ?_, ?_⟩
  · simp [list_removeFromHead, hempty]
  · simp [list_removeFromEnd, hempty]
  · intro target_id
    simp [list_removeByID, hempty]
  · intro c hc
    unfold listCounter_decrement
    split <;> omega

theorem C29_witness :
    list_removeFromHead (sampleState []
        [{ task := sampleTask 3, position := TaskPosition.POS_END, target_id := 0 }]) =
      sampleState [] [{ task := sampleTask 3, position := TaskPosition.POS_END, target_id := 0 }] ∧
    list_removeFromEnd (sampleState []
        [{ task := sampleTask 3, position := TaskPosition.POS_END, target_id := 0 }]) =
      sampleState [] [{ task := sampleTask 3, position := TaskPosition.POS_END, target_id := 0 }] ∧
    (∀ target_id : Int, list_removeByID (sampleState []
        [{ task := sampleTask 3, position := TaskPosition.POS_END, target_id := 0 }]) target_id =
      sampleState [] [{ task := sampleTask 3, position := TaskPosition.POS_END, target_id := 0 }]) ∧
    (∀ c : Int, 0 ≤ c → 0 ≤ listCounter_decrement c) :=
  C29_removals_on_empty_sequence_change_nothing
    (sampleState [] [{ task := sampleTask 3, position := TaskPosition.POS_END, target_id := 0 }])
    rfl


/-! ## Remove the head, then undo (claim C30) -/

theorem Task.setId_self (t : Task) : t.setId t.id = t := by
  cases t
  rfl

theorem list_restoreTask_place_list_counter (s : State) (task : Task)
    (position : TaskPosition) (target_id : Int) :
    (list_restoreTask_place s task position target_id).list_counter =
      listCounter_increment s.list_counter := by
  rw [list_restoreTask_place_eq]
  rfl

theorem list_restoreTask_place_undo_stack (s : State) (task : Task)
    (position : TaskPosition) (target_id : Int) :
    (list_restoreTask_place s task position target_id).undo_stack = s.undo_stack := by
  rw [list_restoreTask_place_eq]
  rfl

theorem list_removeFromHead_of_cons (s : State) (h : Task) (rest : List Task)
    (hl : s.head_list = h :: rest) :
    list_removeFromHead s =
      { s with undo_stack := stack_push s.undo_stack h TaskPosition.POS_HEAD 0,
               head_list := rest,
               list_counter := listCounter_decrement s.list_counter } := by
  simp [list_removeFromHead, hl]

/-- C30: on a non-empty primary sequence with pairwise distinct ids and the counter in step
with the sequence, `list_removeFromHead` immediately followed by `list_restoreTask` returns,
and gives back the original sequence (same tasks, same order) and the original counter
value; when the undo stack held fewer than 10 entries before (size field in step with the
entries), the undo stack is the original one as well. -/
theorem C30_removeHead_then_undo_restores (s : State) (inputs : List Int)
    (hne : s.head_list ≠ [])
    (hnodup : (s.head_list.map Task.id).Nodup)
    (hcounter : s.list_counter = Int.ofNat s.head_list.length) :
    ∃ s2 inputs1, list_restoreTask (list_removeFromHead s) inputs = some (s2, inputs1) ∧
      s2.head_list = s.head_list ∧
      s2.list_counter = s.list_counter ∧
      (s.undo_stack.size = Int.ofNat s.undo_stack.top.length → s.undo_stack.top.length < 10 →
        s2.undo_stack = s.undo_stack) := by
  cases hl : s.head_list with
  | nil => exact absurd hl hne
  | cons h rest =>
    have hrm := list_removeFromHead_of_cons s h rest hl
    obtain ⟨below, htop⟩ := stack_push_top s.undo_stack h TaskPosition.POS_HEAD 0
    rw [hl] at hnodup
    have hfree : list_hasID rest h.id = false := by
      rw [list_hasID_eq_false_iff]
      intro c hc hid
      simp only [List.map_cons, List.nodup_cons, List.mem_map, not_exists, not_and] at hnodup
      exact hnodup.1 c hc hid
    have hfind : (h.id :: inputs).find? (fun i => !list_hasID rest i) = some h.id := by
      simp [List.find?_cons, hfree]
    have hpos : 0 < s.list_counter := by
      rw [hcounter, hl]
      simp only [List.length_cons, Int.ofNat_eq_coe, Nat.cast_add, Nat.cast_one]
      omega
    obtain ⟨inputs1, hres⟩ := list_restoreTask_of_top (list_removeFromHead s) inputs
      { task := h, position := TaskPosition.POS_HEAD, target_id := 0 } below h.id
      (by rw [hrm]; exact htop) (by rw [hrm]; exact hfind)
    refine ⟨_, inputs1, hres, ?_, ?_, ?_⟩
    · rw [list_restoreTask_place_head _ _ _ _ (Or.inl rfl), hrm, Task.setId_self]
    · rw [list_restoreTask_place_list_counter, hrm]
      simp only [listCounter_decrement_of_pos _ hpos, listCounter_increment]
      omega
    · intro hsize hlen
      have hlt : s.undo_stack.size < 10 := by
        simp only [Int.ofNat_eq_coe] at hsize
        omega
      have hpush := stack_push_of_not_full s.undo_stack h TaskPosition.POS_HEAD 0 hlt
      rw [hpush] at htop
      simp only [List.cons.injEq, true_and] at htop
      rw [list_restoreTask_place_undo_stack, hrm, hpush, ← htop]
      cases hst : s.undo_stack with
      | mk top size =>
        simp

theorem C30_witness :
    ∃ s2 inputs1,
      list_restoreTask (list_removeFromHead
        { sampleState [sampleTask 1, sampleTask 2, sampleTask 3]
            [{ task := sampleTask 7, position := TaskPosition.POS_END, target_id := 0 }] with
          list_counter := 3 }) [4, 5] = some (s2, inputs1) ∧
      s2.head_list = [sampleTask 1, sampleTask 2, sampleTask 3] ∧
      s2.list_counter = 3 ∧
      s2.undo_stack =
        { top := [{ task := sampleTask 7, position := TaskPosition.POS_END, target_id := 0 }],
          size := 1 } := by
  obtain ⟨s2, inputs1, h1, h2, h3, h4⟩ := C30_removeHead_then_undo_restores
    { sampleState [sampleTask 1, sampleTask 2, sampleTask 3]
        [{ task := sampleTask 7, position := TaskPosition.POS_END, target_id := 0 }] with
      list_counter := 3 } [4, 5] (by decide) (by decide) (by decide)
  exact ⟨s2, inputs1, h1, h2, h3, h4 (by decide) (by decide)⟩


/-! ## Remove the end, then undo; undo on an empty stack (claims C31 and C32) -/

theorem list_removeFromEnd_of_split (s : State) (init : List Task) (last : Task)
    (hl : s.head_list = init ++ [last]) (hne : init ≠ []) :
    list_removeFromEnd s =
      { s with undo_stack := stack_push s.undo_stack last TaskPosition.POS_END 0,
               head_list := init,
               list_counter := listCounter_decrement s.list_counter } := by
  cases hs : s.head_list with
  | nil =>
    rw [hs] at hl
    simp at hl
  | cons a tl =>
    cases tl with
    | nil =>
      rw [hs] at hl
      cases init with
      | nil => exact absurd rfl hne
      | cons x init1 =>
        have hlen := congrArg List.length hl
        simp only [List.length_cons, List.length_append, List.length_nil] at hlen
        omega
    | cons b tl2 =>
      rw [hs] at hl
      have hu := list_unlinkLast_of_split a b tl2 init last hl
      simp [list_removeFromEnd, hs, hu]

/-- C31: on a primary sequence `init ++ [last]` of at least two tasks with pairwise distinct
ids and the counter in step with the sequence, `list_removeFromEnd` immediately followed by
`list_restoreTask` returns and gives back the original sequence, with the restored task
again last, and the original counter value. -/
theorem C31_removeEnd_then_undo_restores (s : State) (inputs : List Int)
    (init : List Task) (last : Task)
    (hl : s.head_list = init ++ [last]) (hne : init ≠ [])
    (hnodup : (s.head_list.map Task.id).Nodup)
    (hcounter : s.list_counter = Int.ofNat s.head_list.length) :
    ∃ s2 inputs1, list_restoreTask (list_removeFromEnd s) inputs = some (s2, inputs1) ∧
      s2.head_list = init ++ [last] ∧
      s2.head_list = s.head_list ∧
      s2.list_counter = s.list_counter := by
  have hrm := list_removeFromEnd_of_split s init last hl hne
  obtain ⟨below, htop⟩ := stack_push_top s.undo_stack last TaskPosition.POS_END 0
  rw [hl] at hnodup
  have hfree : list_hasID init last.id = false := by
    rw [list_hasID_eq_false_iff]
    intro c hc hid
    rw [List.map_append, List.nodup_append] at hnodup
    have hdis := hnodup.2.2
    exact (List.disjoint_left.mp hdis) (List.mem_map_of_mem Task.id hc) (by simp [hid])
  have hfind : (last.id :: inputs).find? (fun i => !list_hasID init i) = some last.id := by
    simp [List.find?_cons, hfree]
  have hpos : 0 < s.list_counter := by
    rw [hcounter, hl]
    simp only [List.length_append, List.length_cons, List.length_nil, Int.ofNat_eq_coe,
      Nat.cast_add, Nat.cast_one]
    omega
  obtain ⟨inputs1, hres⟩ := list_restoreTask_of_top (list_removeFromEnd s) inputs
    { task := last, position := TaskPosition.POS_END, target_id := 0 } below last.id
    (by rw [hrm]; exact htop) (by rw [hrm]; exact hfind)
  have hhead : (list_restoreTask_place
      { list_removeFromEnd s with
        undo_stack := { top := below, size := (list_removeFromEnd s).undo_stack.size - 1 } }
      (last.setId last.id) TaskPosition.POS_END 0).head_list = init ++ [last] := by
    rw [list_restoreTask_place_end _ _ _ (by rw [hrm]; exact hne), hrm, Task.setId_self]
  refine ⟨_, inputs1, hres, hhead, ?_, ?_⟩
  · rw [hhead, hl]
  · rw [list_restoreTask_place_list_counter, hrm]
    simp only [listCounter_decrement_of_pos _ hpos, listCounter_increment]
    omega

theorem C31_witness :
    ∃ s2 inputs1,
      list_restoreTask (list_removeFromEnd
        { sampleState [sampleTask 1, sampleTask 2, sampleTask 3] [] with list_counter := 3 })
        [] = some (s2, inputs1) ∧
      s2.head_list = [sampleTask 1, sampleTask 2] ++ [sampleTask 3] ∧
      s2.head_list = [sampleTask 1, sampleTask 2, sampleTask 3] ∧
      s2.list_counter = 3 :=
  C31_removeEnd_then_undo_restores
    { sampleState [sampleTask 1, sampleTask 2, sampleTask 3] [] with list_counter := 3 }
    [] [sampleTask 1, sampleTask 2] (sampleTask 3) rfl (by decide) (by decide) (by decide)

/-- C32: when the undo stack is empty, `stack_pop` returns no task and leaves nothing to
change, and `list_restoreTask` returns the state it was given, with no answer read: the
primary sequence, the counter, the undo stack and the three indexes are unchanged. -/
theorem C32_undo_on_empty_stack_changes_nothing (s : State) (inputs : List Int)
    (hempty : s.undo_stack.top = []) :
    stack_pop s.undo_stack = none ∧ list_restoreTask s inputs = some (s, inputs) := by
  have hpop : stack_pop s.undo_stack = none := by
    simp [stack_pop, hempty]
  exact ⟨hpop, by simp [list_restoreTask, hpop]⟩

theorem C32_witness :
    stack_pop (sampleState [sampleTask 1, sampleTask 2] []).undo_stack = none ∧
    list_restoreTask (sampleState [sampleTask 1, sampleTask 2] []) [4, 5] =
      some (sampleState [sampleTask 1, sampleTask 2] [], [4, 5]) :=
  C32_undo_on_empty_stack_changes_nothing (sampleState [sampleTask 1, sampleTask 2] []) [4, 5]
    rfl

/-! ## One task held twice, the comparator, the last node (claims C34 to C37) -/

/-- C34, the code at the failing input: after `addHead` of task 1, `addHead` of task 2,
`removeHead` and `removeEnd`, task 1 is on top of the undo stack and is still the task of
the node that `main` holds as its primary sequence. -/
theorem C34_task_in_sequence_and_on_stack :
    (runCommands initialState
        [Command.addHead (sampleTask 1), Command.addHead (sampleTask 2), Command.removeHead,
         Command.removeEnd]).map
      (fun s => (s.head_list, s.undo_stack.top.map StackNode.task))
      = some ([sampleTask 1], [sampleTask 1, sampleTask 2]) := by
  decide

/-- C35, the code at the failing input: for the ids 2147483647 and -2 and the id key,
`compareTasks` returns -2147483647, a negative number although the first id is the larger
one; with the arguments swapped it returns 2147483647, a positive number although the first
id is the smaller one. -/
theorem C35_compareTasks_sign_wrong_on_overflow :
    compareTasks (sampleTask 2147483647) (sampleTask (-2)) SortKey.KEY_ID = -2147483647 ∧
    compareTasks (sampleTask (-2)) (sampleTask 2147483647) SortKey.KEY_ID = 2147483647 := by
  decide

/-- C36, the code at the failing input: on a primary sequence of exactly one task (counter
1) the menu command `removeEnd` leaves `main` with the same one-node list it held before;
the counter is 0 and the task is on top of the undo stack. -/
theorem C36_removeEnd_on_single_task_keeps_menu_list :
    (runCommand { sampleState [sampleTask 1] [] with list_counter := 1 }
        Command.removeEnd).map
      (fun s => (s.head_list, s.list_counter, stack_peek s.undo_stack))
      = some ([sampleTask 1], 0, some (sampleTask 1)) := by
  decide

/-- C37, the code at the failing input: after `addHead` of a task with id 2147483647 and
`addEnd` of a task with id -2, the in-order traversal of the id index lists the ids
2147483647, -2, which is not non-decreasing by id. -/
theorem C37_id_index_out_of_order_in_reachable_state :
    (runCommands initialState
        [Command.addHead (sampleTask 2147483647), Command.addEnd (sampleTask (-2))]).map
      (fun s => (s.head_list.map Task.id, (tree_inorder s.id_tree).map Task.id))
      = some ([2147483647, -2], [2147483647, -2]) := by
  decide

/-! ## The order of a loaded snapshot (claim C38) -/

/-- C38: for every prior state and every file whose header count is the number `n` of
complete records it holds, `file_loadTasks` gives the primary sequence of the records in
reverse file order; and saving that sequence and loading the saved file (into any state)
gives the records in file order again. -/
theorem C38_load_reverses_file_order (s : State) (f : TaskFile)
    (hcount : f.count = some (Int.ofNat f.records.length)) :
    (file_loadTasks (some f) s).1.head_list = f.records.reverse ∧
    ∀ (disk : Option TaskFile) (s2 : State),
      (file_loadTasks (file_saveTasks true disk (file_loadTasks (some f) s).1.head_list)
        s2).1.head_list = f.records := by
  have hload : ∀ (g : TaskFile) (st : State),
      g.count = some (Int.ofNat g.records.length) →
      (file_loadTasks (some g) st).1.head_list = g.records.reverse := by
    intro g st hg
    rw [file_loadTasks_of_count st g _ hg]
    obtain ⟨h1, _⟩ := file_loadTasks_loop_spec (Int.ofNat g.records.length).toNat
      g.records (list_freeAll st) 0
    rw [h1]
    simp [list_freeAll]
  refine ⟨hload f s hcount, ?_⟩
  intro disk s2
  rw [hload f s hcount]
  have hsave : file_saveTasks true disk f.records.reverse =
      some { count := some (Int.ofNat f.records.reverse.length),
             records := f.records.reverse } :=
    file_saveTasks_of_open disk f.records.reverse
  rw [hsave, hload _ s2 rfl]
  simp

theorem C38_witness :
    (file_loadTasks
        (some { count := some 3, records := [sampleTask 1, sampleTask 2, sampleTask 3] })
        (sampleState [sampleTask 9] [])).1.head_list =
      [sampleTask 1, sampleTask 2, sampleTask 3].reverse ∧
    ∀ (disk : Option TaskFile) (s2 : State),
      (file_loadTasks (file_saveTasks true disk
        (file_loadTasks
          (some { count := some 3, records := [sampleTask 1, sampleTask 2, sampleTask 3] })
          (sampleState [sampleTask 9] [])).1.head_list) s2).1.head_list =
        [sampleTask 1, sampleTask 2, sampleTask 3] :=
  C38_load_reverses_file_order (sampleState [sampleTask 9] [])
    { count := some 3, records := [sampleTask 1, sampleTask 2, sampleTask 3] } rfl


/-! ## Clearing the list, and undoing it all (claims C33 and C39) -/

theorem take_append_take (k : Nat) (l1 l2 : List StackNode) :
    (l1 ++ l2.take k).take k = (l1 ++ l2).take k := by
  rw [List.take_append_eq_append_take, List.take_append_eq_append_take, List.take_take]
  congr 2
  omega

/-- On a stack whose size field is in step with at most 10 entries, `stack_push` puts the new
entry on top and keeps the 10 topmost entries. -/
theorem stack_push_of_wf (st : Stack) (task : Task) (position : TaskPosition)
    (target_id : Int) (hwf : st.size = Int.ofNat st.top.length) (hle : st.top.length ≤ 10) :
    stack_push st task position target_id =
      { top := ({ task := task, position := position, target_id := target_id } ::
          st.top).take 10,
        size := min (st.size + 1) 10 } := by
  simp only [Int.ofNat_eq_coe] at hwf
  by_cases hfull : st.size < 10
  · rw [stack_push_of_not_full st task position target_id hfull]
    have hlen : ({ task := task, position := position, target_id := target_id } ::
        st.top).length ≤ 10 := by
      simp only [List.length_cons]
      omega
    rw [List.take_of_length_le hlen]
    congr 1
    omega
  · have h10 : st.top.length = 10 := by omega
    rw [stack_push_of_full st task position target_id (by omega) (by omega)]
    congr 1
    · rw [List.dropLast_eq_take, h10]
      rfl
    · omega

theorem stack_push_keeps_wf (st : Stack) (task : Task) (position : TaskPosition)
    (target_id : Int) (hwf : st.size = Int.ofNat st.top.length) (hle : st.top.length ≤ 10) :
    (stack_push st task position target_id).size =
        Int.ofNat (stack_push st task position target_id).top.length ∧
      (stack_push st task position target_id).top.length ≤ 10 :=
  stack_call_keeps_size st (StackCall.push task position target_id) ⟨hwf, hle⟩

/-- The loop of `list_freeAll` on such a stack: the tasks end up on the stack last task on
top, each as a `headEntry`, and the 10 topmost entries are kept. -/
theorem list_freeAll_loop_of_wf (tasks : List Task) (st : Stack)
    (hwf : st.size = Int.ofNat st.top.length) (hle : st.top.length ≤ 10) :
    list_freeAll_loop tasks st =
      { top := (tasks.reverse.map headEntry ++ st.top).take 10,
        size := min (st.size + Int.ofNat tasks.length) 10 } := by
  induction tasks generalizing st with
  | nil =>
    cases st with
    | mk top size =>
      simp only [Int.ofNat_eq_coe] at hwf hle ⊢
      simp only [list_freeAll_loop, List.reverse_nil, List.map_nil, List.nil_append,
        List.length_nil, Nat.cast_zero, add_zero]
      rw [List.take_of_length_le hle]
      congr 1
      omega
  | cons t rest ih =>
    obtain ⟨hwf1, hle1⟩ := stack_push_keeps_wf st t TaskPosition.POS_HEAD 0 hwf hle
    simp only [list_freeAll_loop]
    rw [ih _ hwf1 hle1, stack_push_of_wf st t TaskPosition.POS_HEAD 0 hwf hle]
    congr 1
    · simp only [take_append_take, List.reverse_cons, List.map_append, List.map_cons,
        List.map_nil, List.append_assoc, List.singleton_append, headEntry]
    · simp only [Int.ofNat_eq_coe, List.length_cons, Nat.cast_add, Nat.cast_one]
      omega

/-- C33: for every primary sequence of `n` tasks and every undo stack (size field in step
with at most 10 entries), the menu command `clearAll` is `list_freeAll` with the head reset:
it leaves the sequence empty and the counter 0 and pushes the tasks in sequence order, each
with position Head, so that the stack holds the 10 topmost of: the tasks last first, then
the old entries. Its top `min n 10` entries are the last `min n 10` tasks, last task on top,
and its size is `min (old size + n) 10`. -/
theorem C33_clearAll_moves_sequence_to_stack (s : State)
    (hwf : s.undo_stack.size = Int.ofNat s.undo_stack.top.length)
    (hle : s.undo_stack.top.length ≤ 10) :
    runCommand s Command.clearAll = some (list_freeAll s) ∧
    (list_freeAll s).head_list = [] ∧
    (list_freeAll s).list_counter = 0 ∧
    (list_freeAll s).undo_stack.top =
      (s.head_list.reverse.map headEntry ++ s.undo_stack.top).take 10 ∧
    (list_freeAll s).undo_stack.top.take (min s.head_list.length 10) =
      (s.head_list.reverse.map headEntry).take (min s.head_list.length 10) ∧
    (list_freeAll s).undo_stack.size =
      min (s.undo_stack.size + Int.ofNat s.head_list.length) 10 := by
  have hloop := list_freeAll_loop_of_wf s.head_list s.undo_stack hwf hle
  refine ⟨rfl, rfl, rfl, ?_, ?_, ?_⟩
  · simp only [list_freeAll, hloop]
  · simp only [list_freeAll, hloop]
    rw [List.take_take]
    have hmin : min (min s.head_list.length 10) 10 = min s.head_list.length 10 := by omega
    rw [hmin]
    apply List.take_append_of_le_length
    simp only [List.length_map, List.length_reverse]
    omega
  · simp only [list_freeAll, hloop]

theorem C33_witness :
    (list_freeAll (sampleState [sampleTask 1, sampleTask 2]
        [{ task := sampleTask 7, position := TaskPosition.POS_END, target_id := 0 }])
      ).undo_stack.top =
      (([sampleTask 1, sampleTask 2] : List Task).reverse.map headEntry ++
        ([{ task := sampleTask 7, position := TaskPosition.POS_END, target_id := 0 }] :
          List StackNode)).take 10 ∧
    (list_freeAll (sampleState [sampleTask 1, sampleTask 2]
        [{ task := sampleTask 7, position := TaskPosition.POS_END, target_id := 0 }])
      ).undo_stack.size = min (1 + 2) 10 :=
  ⟨(C33_clearAll_moves_sequence_to_stack
      (sampleState [sampleTask 1, sampleTask 2]
        [{ task := sampleTask 7, position := TaskPosition.POS_END, target_id := 0 }])
      rfl (by decide)).2.2.2.1,
   (C33_clearAll_moves_sequence_to_stack
      (sampleState [sampleTask 1, sampleTask 2]
        [{ task := sampleTask 7, position := TaskPosition.POS_END, target_id := 0 }])
      rfl (by decide)).2.2.2.2.2⟩


/-- Undoing a run of head entries: when the stack holds the entries of `rtodo` on top of the
stack `base` and the ids of `rtodo` and of the sequence are pairwise distinct, one undo per
entry returns, relinks the tasks at the head one after the other, counts them and leaves
`base`. -/
theorem runCommands_undo_headEntries (rtodo : List Task) (a : State) (base : Stack)
    (answers : List (List Int))
    (hstack : a.undo_stack =
      { top := rtodo.map headEntry ++ base.top,
        size := base.size + Int.ofNat rtodo.length })
    (hnodup : ((rtodo ++ a.head_list).map Task.id).Nodup)
    (hlen : answers.length = rtodo.length) :
    ∃ a2, runCommands a (answers.map Command.undo) = some a2 ∧
      a2.head_list = rtodo.reverse ++ a.head_list ∧
      a2.list_counter = a.list_counter + Int.ofNat rtodo.length ∧
      a2.undo_stack = base := by
  induction rtodo generalizing a answers with
  | nil =>
    cases answers with
    | nil =>
      refine ⟨a, rfl, by simp, by simp, ?_⟩
      rw [hstack]
      cases base with
      | mk top size => simp
    | cons x xs => simp at hlen
  | cons t r ih =>
    cases answers with
    | nil => simp at hlen
    | cons x xs =>
      have hfree : list_hasID a.head_list t.id = false := by
        rw [list_hasID_eq_false_iff]
        intro c hc hid
        simp only [List.cons_append, List.map_cons, List.nodup_cons, List.mem_map,
          List.mem_append, not_exists, not_and] at hnodup
        exact hnodup.1 c (Or.inr hc) hid
      have hfind : (t.id :: x).find? (fun i => !list_hasID a.head_list i) = some t.id := by
        simp [List.find?_cons, hfree]
      obtain ⟨inputs1, hres⟩ := list_restoreTask_of_top a x (headEntry t)
        (r.map headEntry ++ base.top) t.id (by rw [hstack]; rfl) hfind
      have hhead : (list_restoreTask_place
          { a with undo_stack :=
            { top := r.map headEntry ++ base.top, size := a.undo_stack.size - 1 } }
          ((headEntry t).task.setId t.id) (headEntry t).position
          (headEntry t).target_id).head_list = t :: a.head_list := by
        refine (list_restoreTask_place_head _ _ (headEntry t).position _ (Or.inl rfl)).trans ?_
        simp only [headEntry, Task.setId_self]
      have hnodup2 : ((r ++ t :: a.head_list).map Task.id).Nodup := by
        have hp : List.Perm (r ++ t :: a.head_list) (t :: r ++ a.head_list) :=
          @List.perm_middle Task t r a.head_list
        exact (hp.map Task.id).nodup_iff.mpr hnodup
      obtain ⟨a2, hrun, h1, h2, h3⟩ := ih
        (list_restoreTask_place
          { a with undo_stack :=
            { top := r.map headEntry ++ base.top, size := a.undo_stack.size - 1 } }
          ((headEntry t).task.setId t.id) (headEntry t).position (headEntry t).target_id)
        xs
        (by
          rw [list_restoreTask_place_undo_stack, hstack]
          simp only [List.length_cons, Int.ofNat_eq_coe, Nat.cast_add, Nat.cast_one]
          congr 1
          omega)
        (by rw [hhead]; exact hnodup2)
        (by simpa using hlen)
      refine ⟨a2, ?_, ?_, ?_, h3⟩
      · simp only [List.map_cons, runCommands, runCommand, hres]
        exact hrun
      · rw [h1, hhead]
        simp
      · rw [h2, list_restoreTask_place_list_counter]
        simp only [listCounter_increment, List.length_cons, Int.ofNat_eq_coe, Nat.cast_add,
          Nat.cast_one]
        omega

/-- C39: for every primary sequence of `n` tasks with pairwise distinct ids, the counter
in step with it, and every undo stack of `k` entries (size field in step) with
`k + n <= 10`, the command `clearAll` followed by `n` undos (whatever answers the
environment holds ready) returns and yields the original sequence in its original order,
the original counter value `n`, and the original undo stack. -/
theorem C39_clearAll_then_n_undos_restores (s : State) (answers : List (List Int))
    (hnodup : (s.head_list.map Task.id).Nodup)
    (hcounter : s.list_counter = Int.ofNat s.head_list.length)
    (hwf : s.undo_stack.size = Int.ofNat s.undo_stack.top.length)
    (hcap : s.undo_stack.top.length + s.head_list.length ≤ 10)
    (hlen : answers.length = s.head_list.length) :
    ∃ s2, runCommands s (Command.clearAll :: answers.map Command.undo) = some s2 ∧
      s2.head_list = s.head_list ∧
      s2.list_counter = Int.ofNat s.head_list.length ∧
      s2.list_counter = s.list_counter ∧
      s2.undo_stack = s.undo_stack := by
  have hloop := list_freeAll_loop_of_wf s.head_list s.undo_stack hwf (by omega)
  have hstack : (list_freeAll s).undo_stack =
      { top := s.head_list.reverse.map headEntry ++ s.undo_stack.top,
        size := s.undo_stack.size + Int.ofNat s.head_list.reverse.length } := by
    simp only [list_freeAll, hloop]
    congr 1
    · apply List.take_of_length_le
      simp only [List.length_append, List.length_map, List.length_reverse]
      omega
    · simp only [Int.ofNat_eq_coe, List.length_reverse] at hwf ⊢
      omega
  obtain ⟨s2, hrun, h1, h2, h3⟩ := runCommands_undo_headEntries s.head_list.reverse
    (list_freeAll s) s.undo_stack answers hstack
    (by
      simp only [list_freeAll, List.append_nil]
      exact ((List.reverse_perm s.head_list).map Task.id).nodup_iff.mpr hnodup)
    (by simpa using hlen)
  have hcount : s2.list_counter = Int.ofNat s.head_list.length := by
    rw [h2]
    simp [list_freeAll, listCounter_reset]
  refine ⟨s2, ?_, ?_, hcount, ?_, h3⟩
  · simp only [runCommands, runCommand]
    exact hrun
  · rw [h1]
    simp [list_freeAll]
  · rw [hcount, hcounter]

theorem C39_witness :
    ∃ s2,
      runCommands
        { sampleState [sampleTask 1, sampleTask 2, sampleTask 3]
            [{ task := sampleTask 7, position := TaskPosition.POS_END, target_id := 0 }] with
          list_counter := 3 }
        (Command.clearAll :: [[], [4], []].map Command.undo) = some s2 ∧
      s2.head_list = [sampleTask 1, sampleTask 2, sampleTask 3] ∧
      s2.list_counter = Int.ofNat 3 ∧
      s2.list_counter = 3 ∧
      s2.undo_stack =
        { top := [{ task := sampleTask 7, position := TaskPosition.POS_END, target_id := 0 }],
          size := 1 } :=
  C39_clearAll_then_n_undos_restores
    { sampleState [sampleTask 1, sampleTask 2, sampleTask 3]
        [{ task := sampleTask 7, position := TaskPosition.POS_END, target_id := 0 }] with
      list_counter := 3 }
    [[], [4], []] (by decide) (by decide) (by decide) (by decide) (by decide)


end TaskManager
